import Mathlib

/-!
# Verification of the SublimeAutoDocstring docstring style engine

This file gives a shallow embedding, in Lean 4, of the docstring
parsing / formatting / merging core of the repository (mainly
`docstring_styles.py`, plus the attribute-type scan of
`auto_docstring.py`), and settles the claims C1..C10 about it.

Modelling conventions:

* A Python `str` is modelled as a `List Char` (`Str` below).  The texts
  handled by the plugin use `'\n'` as the only line terminator; the
  embedding assumes `'\r'`-free, `'\x0b'`/`'\x0c'`-free text where line
  structure matters (the source never introduces those characters).
* Python `None` for a string field is `Option.none`; Python string
  truthiness (`if s:`) is `s ≠ ""` for a `Str` and
  `o ≠ none ∧ o ≠ some ""` for an `Option Str`.
* `OrderedDict` is an association list in insertion order; assignment to
  an existing key replaces the value in place, assignment to a new key
  appends.  `dict.pop` removes the entry.
* Mutable, shared `Parameter` objects are modelled with an explicit heap
  (`Heap := List Param`) and object identities `PId := Nat`; argument
  dictionaries map keys to heap indices, so aliasing (the same parameter
  reachable under several names, as produced by multi-name Numpy blocks)
  is represented faithfully.
* Python operations that raise (`KeyError`, `AttributeError` on `None`,
  `list.remove` on a missing element) make the modelled operation return
  `Option.none`.
* The regular expressions of the source are embedded either as
  line-based decision procedures (for the `^ ... $`-anchored,
  `re.MULTILINE` section-heading patterns, whose match sets are
  line-structured) or through a small backtracking regex engine
  (`reMatch`) that follows Python's leftmost, greedy/lazy backtracking
  semantics; each embedded pattern is written next to the source regex
  it translates.
-/

/-! ## Python string primitives -/

/-- A Python `str`, as a list of characters. -/
abbrev Str := List Char

/-- The characters of Python's default `str.strip()` whitespace set. -/
def pyWsChars : List Char := [' ', '\t', '\n', '\r', '\x0b', '\x0c']

/-- `c` is Python whitespace (`\s` for ASCII text). -/
def isPyWs (c : Char) : Bool := pyWsChars.contains c

/-- `c` is a space or a tab (the `[ \t]` class, and `strip(' \t')`). -/
def isIndentChar (c : Char) : Bool := c == ' ' || c == '\t'

/-- `s.lstrip(chars)`: drop leading characters belonging to `chs`. -/
def pyLstripSet (chs : List Char) (s : Str) : Str :=
  s.dropWhile (fun c => chs.contains c)

/-- `s.rstrip(chars)`: drop trailing characters belonging to `chs`. -/
def pyRstripSet (chs : List Char) (s : Str) : Str :=
  (s.reverse.dropWhile (fun c => chs.contains c)).reverse

/-- `s.lstrip()` with the default whitespace set. -/
def pyLstrip (s : Str) : Str := pyLstripSet pyWsChars s

/-- `s.rstrip()` with the default whitespace set. -/
def pyRstrip (s : Str) : Str := pyRstripSet pyWsChars s

/-- `s.strip()` with the default whitespace set. -/
def pyStrip (s : Str) : Str := pyRstrip (pyLstrip s)

/-- `s.strip(' \t')`. -/
def pyStripIndent (s : Str) : Str :=
  pyRstripSet [' ', '\t'] (pyLstripSet [' ', '\t'] s)

/-- `s.split('\n')` (Python `str.split` with a one-character separator). -/
def splitOnNl : Str → List Str
  | [] => [[]]
  | c :: rest =>
    let r := splitOnNl rest
    if c = '\n' then [] :: r
    else
      match r with
      | [] => [[c]]
      | l :: ls => (c :: l) :: ls

/-- Join lines with `'\n'` (left inverse of `splitOnNl`). -/
def joinNl : List Str → Str
  | [] => []
  | [l] => l
  | l :: ls => l ++ '\n' :: joinNl ls

/-- `s.splitlines(keepends=True)` for `'\n'`-terminated lines. -/
def splitKeepNl : Str → List Str
  | [] => []
  | c :: rest =>
    if c = '\n' then ['\n'] :: splitKeepNl rest
    else
      match splitKeepNl rest with
      | [] => [[c]]
      | l :: ls => (c :: l) :: ls

/-- `sub in s` starting at no particular position: Python `s.find(sub)`,
`-1` when absent (represented as `Option Nat`). -/
def pyFind (s sub : Str) : Option Nat :=
  (List.range (s.length + 1)).find? (fun i => sub.isPrefixOf (s.drop i))

/-- `s.startswith(pre)`. -/
def pyStartsWith (s pre : Str) : Bool := pre.isPrefixOf s

/-- `s.count('\n')`. -/
def countNl (s : Str) : Nat := s.count '\n'

/-- `count_leading_newlines` (docstring_styles.py): newlines inside
`s[:-len(s.lstrip())]`.  Note the Python quirk: when `s.lstrip()` is
empty the slice is `s[:-0] = ""`, so an all-whitespace string counts 0. -/
def countLeadingNewlines (s : Str) : Nat :=
  if pyLstrip s = [] then 0
  else countNl (s.take (s.length - (pyLstrip s).length))

/-- `count_trailing_newlines` (docstring_styles.py): newlines inside
`s[len(s.rstrip()):]`. -/
def countTrailingNewlines (s : Str) : Nat :=
  countNl (s.drop (pyRstrip s).length)

/-- `with_bounding_newlines(s, nleading, ntrailing)` (docstring_styles.py,
with the default `nl='\n'`): pad with newlines so that at least the
requested counts are present (a negative multiplier in Python yields the
empty string, matching `Nat` subtraction). -/
def withBoundingNewlines (s : Str) (nleading ntrailing : Nat) : Str :=
  List.replicate (nleading - countLeadingNewlines s) '\n' ++ s ++
    List.replicate (ntrailing - countTrailingNewlines s) '\n'

/-- One iteration of the trailing loop of `strip_newlines`
(docstring_styles.py): strip trailing spaces/tabs and one final newline,
when the last non-space/tab character is a newline. -/
def stripOneTrailingNl (s : Str) : Str :=
  let r := pyRstripSet [' ', '\t'] s
  if r.reverse.take 2 = ['\n', '\r'] then r.take (r.length - 2)
  else if r.reverse.take 1 = ['\n'] then r.take (r.length - 1)
  else s

/-- One iteration of the leading loop of `strip_newlines`: strip leading
spaces/tabs and one newline when the first such character is a newline.
(Python would raise `IndexError` on an empty string here; the source only
ever calls `strip_newlines` with `nleading=0`, so the branch is inert.) -/
def stripOneLeadingNl (s : Str) : Str :=
  let l := pyLstripSet [' ', '\t'] s
  if l.take 2 = ['\r', '\n'] then l.drop 2
  else if l.take 1 = ['\n'] then l.drop 1
  else s

/-- `strip_newlines(s, nleading, ntrailing)` (docstring_styles.py). -/
def stripNewlines (s : Str) (nleading ntrailing : Nat) : Str :=
  Nat.rec (motive := fun _ => Str)
    (Nat.rec (motive := fun _ => Str) s (fun _ t => stripOneLeadingNl t) nleading)
    (fun _ t => stripOneTrailingNl t) ntrailing

/-- Longest common prefix of two strings (the margin-merge step of
`textwrap.dedent`: prefix cases and the truncate-at-first-mismatch loop
all compute exactly this). -/
def lcpStr : Str → Str → Str
  | a :: as, b :: bs => if a = b then a :: lcpStr as bs else []
  | _, _ => []

/-- Leading run of spaces/tabs of a line (`(^[ \t]*)` of
`textwrap._leading_whitespace_re`). -/
def leadingIndent (l : Str) : Str := l.takeWhile isIndentChar

/-- `textwrap.dedent(text)`: first, lines consisting solely of spaces and
tabs are emptied (`_whitespace_only_re.sub('', text)`); then the common
leading whitespace (`margin`) of all remaining lines that contain a
character outside `[ \t\n]` is removed from every line that starts with
it. -/
def pyDedent (s : Str) : Str :=
  let cleared := (splitOnNl s).map
    (fun l => if l ≠ [] ∧ l.all isIndentChar then [] else l)
  let indents := (cleared.filter (fun l => l.any (fun c => ¬ isIndentChar c))).map leadingIndent
  let margin := match indents with
    | [] => []
    | i :: is => is.foldl lcpStr i
  joinNl (cleared.map (fun l => if margin.isPrefixOf l then l.drop margin.length else l))

/-- `dedent_docstr(s, n)` (docstring_styles.py): `lstrip(' \t')` the first
`n` lines, `textwrap.dedent` the rest; `""` for empty input. -/
def dedentDocstr (s : Str) (n : Nat) : Str :=
  let lines := splitKeepNl s
  if lines = [] then []
  else ((lines.take n).map (pyLstripSet [' ', '\t'])).flatten ++ pyDedent (lines.drop n).flatten

/-- `dedent_verbose(s, n)` (docstring_styles.py): the dedented text
together with the indentation string recovered from the first non-blank
line at index ≥ `n`. -/
def dedentVerbose (s : Str) (n : Nat) : Str × Str :=
  let new := dedentDocstr s n
  let sSplit := splitKeepNl s
  let newSplit := splitKeepNl new
  let idx := (List.range sSplit.length).find?
    (fun i => n ≤ i ∧ pyStrip (sSplit.getD i []) ≠ [])
  let ind : Option Nat := match idx with
    | some i => pyFind (sSplit.getD i []) (newSplit.getD i [])
    | none => none
  match ind with
  | some j => ((sSplit.getD (idx.getD 0) []).take j, new)
  | none => ([], new)

/-- `indent_docstr(s, indent, n, trim)` (docstring_styles.py): indent all
lines from index `n` on; when `trim`, blank lines are `strip(' \t')`-ed
instead of indented. -/
def indentDocstr (s indentTxt : Str) (n : Nat) (trim : Bool) : Str :=
  ((splitKeepNl s).enum.map (fun p =>
    if p.1 < n then p.2
    else if pyStrip p.2 ≠ [] ∨ trim = false then indentTxt ++ p.2
    else pyStripIndent p.2)).flatten

/-- `str.title()` for ASCII text: uppercase each letter that follows a
non-letter, lowercase the others. -/
def pyTitleGo : Bool → Str → Str
  | _, [] => []
  | prevAlpha, c :: rest =>
    (if c.isAlpha then (if prevAlpha then c.toLower else c.toUpper) else c) ::
      pyTitleGo c.isAlpha rest

/-- `s.title()`. -/
def pyTitle (s : Str) : Str := pyTitleGo false s

/-- `s.lower()` for ASCII text. -/
def pyLower (s : Str) : Str := s.map Char.toLower

/-- `s.split(',')`. -/
def splitOnComma : Str → List Str
  | [] => [[]]
  | c :: rest =>
    let r := splitOnComma rest
    if c = ',' then [] :: r
    else
      match r with
      | [] => [[c]]
      | l :: ls => (c :: l) :: ls

/-- `", ".join(parts)`. -/
def joinCommaSpace : List Str → Str
  | [] => []
  | [l] => l
  | l :: ls => l ++ ',' :: ' ' :: joinCommaSpace ls

/-- `str(n)` for a natural number. -/
def natStr (n : Nat) : Str := Nat.toDigits 10 n

/-! ## A small backtracking regex engine

Implements the leftmost, greedy/lazy backtracking semantics of Python's
`re` for the fragment needed by the source patterns: character classes,
concatenation, alternation (left branch preferred), greedy and lazy
star, and numbered capturing groups (a group records the span of its
last successful use on the surviving backtracking path, exactly as in
CPython).  `fuel` bounds the recursion depth; every use in this file
passes a fuel far larger than the maximal call depth on its input, so
the engine agrees with Python on those inputs. -/

inductive Re where
  | eps
  | ch (p : Char → Bool)
  | seq (a b : Re)
  | alt (a b : Re)
  | star (greedy : Bool) (a : Re)
  | grp (i : Nat) (a : Re)

/-- Captured groups: last write wins. -/
abbrev Caps := List (Nat × Str)

/-- Record group `i` as `v`. -/
def setCap (caps : Caps) (i : Nat) (v : Str) : Caps := (i, v) :: caps

/-- Look up group `i` (`None` when the group never matched). -/
def getCap (caps : Caps) (i : Nat) : Option Str :=
  (caps.find? (fun p => p.1 == i)).map Prod.snd

/-- The backtracking matcher, in continuation-passing style.  `k` is the
continuation for the rest of the pattern; a `none` result means "no
match along this path", triggering backtracking in the caller. -/
def reMatch : Nat → Re → Str → Caps → (Str → Caps → Option Caps) → Option Caps
  | 0, _, _, _, _ => none
  | fuel + 1, re, s, caps, k =>
    match re with
    | .eps => k s caps
    | .ch p =>
      match s with
      | [] => none
      | c :: rest => if p c then k rest caps else none
    | .seq a b => reMatch fuel a s caps (fun s1 c1 => reMatch fuel b s1 c1 k)
    | .alt a b =>
      match reMatch fuel a s caps k with
      | some r => some r
      | none => reMatch fuel b s caps k
    | .star g a =>
      if g then
        match reMatch fuel a s caps (fun s1 c1 =>
            if s1.length = s.length then none
            else reMatch fuel (.star g a) s1 c1 k) with
        | some r => some r
        | none => k s caps
      else
        match k s caps with
        | some r => some r
        | none => reMatch fuel a s caps (fun s1 c1 =>
            if s1.length = s.length then none
            else reMatch fuel (.star g a) s1 c1 k)
    | .grp i a => reMatch fuel a s caps (fun s1 c1 =>
        k s1 (setCap c1 i (s.take (s.length - s1.length))))

/-- `re.match(pattern, s)`: anchored at position 0, no requirement to
consume the whole string; returns the captures on success. -/
def reMatchAt (fuel : Nat) (r : Re) (s : Str) : Option Caps :=
  reMatch fuel r s [] (fun _ caps => some caps)

/-- A single literal character. -/
def chr (c : Char) : Re := .ch (fun x => x == c)

/-- `.` under `re.DOTALL`. -/
def anyCh : Re := .ch (fun _ => true)

/-- `\s`. -/
def wsCh : Re := .ch isPyWs

/-- `\s*`. -/
def wsStar : Re := .star true wsCh

/-- `x+` (greedy). -/
def rplus (a : Re) : Re := .seq a (.star true a)

/-- `x?` (greedy: branch present preferred). -/
def roptG (a : Re) : Re := .alt a .eps

/-- `[^,\s]`. -/
def notCommaWs : Re := .ch (fun c => !(c == ',') && !(isPyWs c))

/-- The Google parameter-block grammar of `GoogleSection.finalize_param`
(docstring_styles.py):
`([^,\s]+(?:\s*,\s*[^,\s]+)*\s*)(?:\((.*)\))?\s*:\s*(.*)`
compiled with `re.DOTALL | re.MULTILINE` and applied with `re.match`. -/
def googleParamRe : Re :=
  .seq (.grp 1 (.seq (rplus notCommaWs)
        (.seq (.star true (.seq wsStar (.seq (chr ',') (.seq wsStar (rplus notCommaWs)))))
          wsStar)))
    (.seq (roptG (.seq (chr '(') (.seq (.grp 2 (.star true anyCh)) (chr ')'))))
      (.seq wsStar (.seq (chr ':') (.seq wsStar (.grp 3 (.star true anyCh))))))

/-- Fuel used for concrete regex evaluations in this file (far above the
call depth needed for the short texts matched here). -/
def reFuel : Nat := 4000

/-! ## The data model: parameters, sections, docstrings

`Parameter`, `Section` and `Docstring` of docstring_styles.py.  The heap
models Python object identity for `Parameter`s (see the header). -/

/-- `Parameter` (docstring_styles.py).  `meta` only ever carries the
per-parameter `'indent'` entry, modelled as `metaIndent` (`none` when the
`meta` dict has no `'indent'` key). -/
structure Param where
  names : List Str
  types : Option Str
  description : Str
  tag : Option Nat
  descrOnly : Bool
  annotated : Bool
  metaIndent : Option Str
deriving DecidableEq, Repr, Inhabited

/-- The parameter heap; `PId := Nat` indexes into it. -/
abbrev Heap := List Param

/-- Read a heap cell. -/
def heapGet (h : Heap) (p : Nat) : Param := h.getD p default

/-- Overwrite a heap cell. -/
def heapSet (h : Heap) (p : Nat) (v : Param) : Heap := h.set p v

/-- Keys of the per-section argument dictionaries.  Most sections key by
parameter name (a string); Returns/Yields sections produced by the
Napoleon parsers and the Sphinx returns parser key by integer index. -/
inductive DKey where
  | str (s : Str)
  | int (n : Nat)
deriving DecidableEq, Repr

/-- An argument dictionary: ordered mapping from key to heap id. -/
abbrev Args := List (DKey × Nat)

/-- Ordered-dict lookup. -/
def argsGet (a : Args) (k : DKey) : Option Nat :=
  (a.find? (fun p => p.1 == k)).map Prod.snd

/-- Ordered-dict `pop` (the key is known to be present at call sites). -/
def argsRemove (a : Args) (k : DKey) : Args :=
  a.filter (fun p => !(p.1 == k))

/-- Ordered-dict assignment: replace in place, else append. -/
def argsPut (a : Args) (k : DKey) (v : Nat) : Args :=
  if (argsGet a k).isSome then a.map (fun p => if p.1 == k then (k, v) else p)
  else a ++ [(k, v)]

/-- `Section` (docstring_styles.py).  `structured` is `is_formatted`
(the alias has a registered parser/formatter pair); a structured section
holds `args`, an unstructured one holds `rawText` (`_text`). -/
structure Sec where
  heading : Str
  aliasName : Str
  structured : Bool
  args : Args
  rawText : Str
  sectionIndent : Str
deriving DecidableEq, Repr

/-- `Docstring.sections` plus `trailing_newlines`: ordered mapping from
section key to `Section`-or-`None`. -/
structure DS where
  sections : List (Str × Option Sec)
  trailingNewlines : Nat
deriving DecidableEq, Repr

/-- A docstring model together with its parameter heap. -/
structure MState where
  heap : Heap
  ds : DS
deriving DecidableEq, Repr

/-- Ordered-dict lookup on `sections`. -/
def dsGet (d : DS) (k : Str) : Option (Option Sec) :=
  (d.sections.find? (fun p => p.1 == k)).map Prod.snd

/-- Ordered-dict assignment on `sections`. -/
def dsPut (d : DS) (k : Str) (v : Option Sec) : DS :=
  { d with sections :=
      if (dsGet d k).isSome then d.sections.map (fun p => if p.1 == k then (k, v) else p)
      else d.sections ++ [(k, v)] }

/-- Ordered-dict `pop` on `sections`. -/
def dsRemove (d : DS) (k : Str) : DS :=
  { d with sections := d.sections.filter (fun p => !(p.1 == k)) }

/-- String-keyed association-list lookup. -/
def alistGet (l : List (Str × Str)) (k : Str) : Option Str :=
  (l.find? (fun p => p.1 == k)).map Prod.snd

/-- `NapoleonSection.ALIASES`. -/
def napoleonAliases : List (Str × Str) :=
  [("Args".data, "Parameters".data),
   ("Arguments".data, "Parameters".data),
   ("Deleted Args".data, "Deleted Parameters".data),
   ("Deleted Arguments".data, "Deleted Parameters".data),
   ("Other Args".data, "Other Parameters".data),
   ("Other Arguments".data, "Other Parameters".data),
   ("Keyword Args".data, "Keyword Arguments".data),
   ("Return".data, "Returns".data),
   ("Yield".data, "Yields".data),
   ("Warnings".data, "Warning".data)]

/-- `SphinxSection.ALIASES`. -/
def sphinxAliases : List (Str × Str) :=
  [("Return".data, "Returns".data),
   ("Yield".data, "Yields".data)]

/-- The keys of `GoogleSection.PARSERS` (and, identically,
`NumpySection.PARSERS`): the structured canonical section names. -/
def napoleonStructuredNames : List Str :=
  ["Parameters".data, "Other Parameters".data, "Deleted Parameters".data,
   "Keyword Arguments".data, "Attributes".data, "Deleted Attributes".data,
   "Raises".data, "No Longer Raises".data, "Returns".data, "Yields".data]

/-- The keys of `SphinxSection.PARSERS`. -/
def sphinxStructuredNames : List Str :=
  ["Parameters".data, "Attributes".data, "Raises".data, "Example".data,
   "Returns".data, "Yields".data, "Warning".data, "See Also".data, "Note".data]

/-- `Section.resolve_alias`: title-case the heading, look it up in the
style's alias table, fall back to the raw heading. -/
def resolveAlias (aliases : List (Str × Str)) (heading : Str) : Str :=
  match alistGet aliases (pyTitle heading) with
  | some a => a
  | none => heading

/-! ## Google-style docstring text model

Line-based embedding of `GoogleDocstring._parse` / `format` and
`GoogleSection`.  `GoogleDocstring.SECTION_RE` is
`^[A-Za-z0-9][A-Za-z0-9 \t]*:\s*$\r?\n?` under `re.MULTILINE`: a match
is a line whose content is an alphanumeric-headed run of
`[A-Za-z0-9 \t]` followed by `:` and trailing blanks; because `\s*` may
cross newlines before the final `$`, the match also consumes every
immediately following whitespace-only line (checked against CPython). -/

/-- `[A-Za-z0-9]`. -/
def isAlnumA (c : Char) : Bool := c.isAlpha || c.isDigit

/-- The line-content form of a Google section heading match (see above). -/
def googleHeadingLine (l : Str) : Bool :=
  match l with
  | [] => false
  | c :: rest =>
    if isAlnumA c then
      let body := rest.takeWhile (fun x => isAlnumA x || x == ' ' || x == '\t')
      match rest.drop body.length with
      | ':' :: tail => tail.all isIndentChar
      | _ => false
    else false

/-- A whitespace-only line (absorbed by the `\s*` of the heading match). -/
def wsOnlyLine (l : Str) : Bool := l.all isIndentChar

/-- `GoogleDocstring._extract_section_name`:
`sec_re_result.strip().rstrip(':').rstrip()`. -/
def googleExtractName (raw : Str) : Str :=
  pyRstrip (pyRstripSet [':'] (pyStrip raw))

/-- Split the lines after a heading into `(heading line, section body)`
pairs: the heading match consumes its own line plus any directly
following whitespace-only lines; the body runs to the next heading
line.  Every body line except a final newline-less one carries its
terminating `'\n'` (the next match starts at a line start). -/
def googleSectionsGo : Nat → List Str → List (Str × Str)
  | 0, _ => []
  | _, [] => []
  | fl + 1, l :: rest =>
    if googleHeadingLine l then
      let ws := rest.takeWhile wsOnlyLine
      let rest1 := rest.drop ws.length
      let bodyLines := rest1.takeWhile (fun x => !googleHeadingLine x)
      let after := rest1.drop bodyLines.length
      let body : Str :=
        if bodyLines = [] then []
        else joinNl bodyLines ++ (if after ≠ [] then ['\n'] else [])
      (l, body) :: googleSectionsGo fl after
    else googleSectionsGo fl rest

/-- `GoogleDocstring._parse`'s section split, with the implicit
`"Summary"` section covering the text before the first heading. -/
def googleParseSections (s : Str) : List (Str × Str) :=
  let lines := splitOnNl s
  let pre := lines.takeWhile (fun l => !googleHeadingLine l)
  let rest := lines.drop pre.length
  let summaryBody : Str :=
    if pre = [] then []
    else joinNl pre ++ (if rest ≠ [] then ['\n'] else [])
  ("Summary".data, summaryBody) :: googleSectionsGo (rest.length + 1) rest

/-- `^\S` — a parameter block starts at an unindented content line. -/
def blockStartLine (l : Str) : Bool :=
  match l with
  | [] => false
  | c :: _ => !(isPyWs c)

/-- `[^\S\n]` — whitespace other than a newline. -/
def isNlFreeWs (c : Char) : Bool := isPyWs c && !(c == '\n')

/-- A block continuation line, per
`(?:\n[^\S\n]+\S[^\r\n]*|\n)` of `param_parser_common`: an empty line, or
a line starting with non-newline whitespace that contains a non-space
character. -/
def blockContLine (l : Str) : Bool :=
  match l with
  | [] => true
  | c :: _ => isNlFreeWs c && l.any (fun x => !(isPyWs x))

/-- `re.findall(r"^\S[^\r\n]*(?:\n[^\S\n]+\S[^\r\n]*|\n)*", text,
re.MULTILINE)` of `NapoleonSection.param_parser_common`, over the lines
of `text` (each match ends with `'\n'` unless it reaches the end of the
text; whitespace-only interior lines are skipped between blocks). -/
def reFindBlocksGo : Nat → List Str → List Str
  | 0, _ => []
  | _, [] => []
  | fl + 1, l :: rest =>
    if blockStartLine l then
      let cont := rest.takeWhile blockContLine
      let remaining := rest.drop cont.length
      let block := joinNl (l :: cont) ++ (if remaining ≠ [] then ['\n'] else [])
      block :: reFindBlocksGo fl remaining
    else reFindBlocksGo fl rest

/-- The block list of `param_parser_common`.  The fuel dominates the
line count, and each step consumes at least one line, so the recursion
never runs out. -/
def reFindBlocks (s : Str) : List Str :=
  reFindBlocksGo ((splitOnNl s).length + 1) (splitOnNl s)

/-- `GoogleSection.finalize_param(s, tag)`: match the block against the
Google parameter grammar; a non-matching block becomes a
description-only parameter keyed by the stringified block index. -/
def googleFinalizeParam (s : Str) (tag : Nat) : Param :=
  match reMatchAt reFuel googleParamRe s with
  | some caps =>
    let nameList := (splitOnComma ((getCap caps 1).getD [])).map pyStrip
    let dv := dedentVerbose ((getCap caps 3).getD []) 1
    { names := nameList, types := getCap caps 2, description := dv.2,
      tag := some tag, descrOnly := false, annotated := false,
      metaIndent := some dv.1 }
  | none =>
    { names := [natStr tag], types := some [], description := s,
      tag := some tag, descrOnly := true, annotated := false,
      metaIndent := none }

/-- `NapoleonSection.is_return_section`. -/
def isReturnHeading (heading : Str) : Bool :=
  heading ≠ [] &&
    ["return".data, "returns".data, "yield".data, "yields".data].contains (pyLower heading)

/-- `NapoleonSection.param_parser_common` (with `GoogleSection`'s
`finalize_param`): dedent, split into blocks, finalize each; return
sections join the names and key by block index, other sections key by
each name. -/
def paramParserCommonG (heap : Heap) (heading text : Str) : Heap × Args :=
  let text1 := dedentDocstr text 0
  (reFindBlocks text1).enum.foldl
    (fun hargs ib =>
      let p := googleFinalizeParam ib.2 ib.1
      if isReturnHeading heading then
        let p1 := { p with names := [joinCommaSpace p.names] }
        (hargs.1 ++ [p1], argsPut hargs.2 (DKey.int ib.1) hargs.1.length)
      else
        (hargs.1 ++ [p],
         p.names.foldl (fun a n => argsPut a (DKey.str n) hargs.1.length) hargs.2))
    (heap, [])

/-- `GoogleSection(heading, text)`: resolve the alias, decide whether the
section is structured, and run the `text` setter (strip one trailing
newline, then parse into `args` or store the dedented `_text` together
with the recovered `section_indent`; `GoogleSection.section_indent`
defaults to four spaces). -/
def googleMkSec (heap : Heap) (heading text : Str) : Heap × Sec :=
  let al := resolveAlias napoleonAliases heading
  let structured := napoleonStructuredNames.contains al
  let val := stripNewlines text 0 1
  if structured then
    let ha := paramParserCommonG heap heading val
    (ha.1, { heading := heading, aliasName := al, structured := true, args := ha.2,
             rawText := [], sectionIndent := "    ".data })
  else
    let dv := dedentVerbose val 0
    (heap, { heading := heading, aliasName := al, structured := false, args := [],
             rawText := dv.2,
             sectionIndent := if dv.1 ≠ [] then dv.1 else "    ".data })

/-- `GoogleDocstring._parse` (via `Docstring.__init__` with a string and
`template_order=False`): record the trailing-newline count, dedent, split
into sections, and `finalize_section` each (which stores the section
under its resolved alias, replacing in place or appending). -/
def googleParse (s : Str) : MState :=
  let tn := countTrailingNewlines s
  let d := dedentDocstr s 1
  (googleParseSections d).foldl
    (fun st sec =>
      let name := googleExtractName sec.1
      let hs := googleMkSec st.heap name sec.2
      { heap := hs.1, ds := dsPut st.ds hs.2.aliasName (some hs.2) })
    { heap := [], ds := { sections := [], trailingNewlines := tn } }

/-- Python truthiness of an optional string. -/
def truthyOpt (o : Option Str) : Bool :=
  match o with
  | none => false
  | some s => s ≠ []

/-- `GoogleSection.param_formatter`. -/
def googleParamFormatter (heap : Heap) (sec : Sec) : Str :=
  sec.args.foldl
    (fun s kv =>
      let p := heapGet heap kv.2
      if p.descrOnly then s ++ withBoundingNewlines p.description 0 1
      else
        let b0 := joinCommaSpace p.names
        let b1 := if truthyOpt p.types ∧ pyStrip (p.types.getD []) ≠ [] then
            b0 ++ " (".data ++ pyStrip (p.types.getD []) ++ ")".data
          else b0
        let b2 := if p.description ≠ [] then
            b1 ++ ": ".data ++
              indentDocstr p.description (p.metaIndent.getD "    ".data) 1 true
          else b1
        s ++ withBoundingNewlines b2 0 1)
    []

/-- The `Section.text` property for a Google section: the registered
formatter for structured sections, `_text` otherwise
(`formatter_override` is never set in the modelled flows). -/
def googleSecText (heap : Heap) (sec : Sec) : Str :=
  if sec.structured then googleParamFormatter heap sec else sec.rawText

/-- Generic lookup used by `get_section` / `pop_section` /
`section_exists`: try the key directly, else — when the key is literally
an alias-table key — resolve it and retry; returns the key the section
is stored under together with the stored value. -/
def sectionFind (aliases : List (Str × Str)) (d : DS) (name : Str) :
    Option (Str × Option Sec) :=
  match dsGet d name with
  | some v => some (name, v)
  | none =>
    if (alistGet aliases name).isSome then
      match dsGet d (resolveAlias aliases name) with
      | some v => some (resolveAlias aliases name, v)
      | none => none
    else none

/-- `Docstring.section_exists`: found and not `None`. -/
def sectionExB (aliases : List (Str × Str)) (d : DS) (name : Str) : Bool :=
  match sectionFind aliases d name with
  | some (_, some _) => true
  | _ => false

/-- `Docstring.get_section` (`none` models the `KeyError`). -/
def getSectionV (aliases : List (Str × Str)) (d : DS) (name : Str) :
    Option (Option Sec) :=
  (sectionFind aliases d name).map Prod.snd

/-- `Docstring.pop_section` (`none` models the `KeyError`). -/
def popSectionM (aliases : List (Str × Str)) (d : DS) (name : Str) :
    Option (Option Sec × DS) :=
  match sectionFind aliases d name with
  | some kv => some (kv.2, dsRemove d kv.1)
  | none => none

/-- `Docstring.insert_section`: retarget the heading and assign. -/
def insertSection (d : DS) (name : Str) (sec : Sec) : DS :=
  dsPut d name (some { sec with heading := name })

/-- `GoogleDocstring._format_section_text`. -/
def googleFormatSectionText (heading body : Str) : Str :=
  heading ++ ':' :: '\n' :: body

/-- `NapoleonDocstring.format` for the Google style: emit a non-blank
Summary first, then every present section after the first dictionary
entry, each bounded by single blank lines; re-apply the original
trailing-newline count and the caller's indentation. -/
def googleFormat (st : MState) (topIndent : Str) : Str :=
  let ds := st.ds
  let s0 : Str :=
    if sectionExB napoleonAliases ds "Summary".data then
      match getSectionV napoleonAliases ds "Summary".data with
      | some (some sec) =>
        let t := googleSecText st.heap sec
        if pyStrip t ≠ [] then withBoundingNewlines t 0 1 else []
      | _ => []
    else []
  let s1 := (ds.sections.drop 1).foldl
    (fun acc p =>
      match p.2 with
      | none => acc
      | some sec =>
        let secBody := indentDocstr (googleSecText st.heap sec) sec.sectionIndent 0 true
        acc ++ withBoundingNewlines (googleFormatSectionText sec.heading secBody) 1 1)
    s0
  let s2 := if ds.trailingNewlines ≠ 0 then withBoundingNewlines s1 0 ds.trailingNewlines
    else s1
  indentDocstr s2 topIndent 1 true

/-- The snippet marker `"${NUMBER:"` (auto_docstring.py `_nstr`). -/
def markerStr : Str := "$\x7bNUMBER:".data

/-- `s.find(sub, start)`. -/
def pyFindFrom (s sub : Str) (start : Nat) : Option Nat :=
  (pyFind (s.drop start) sub).map (· + start)

/-- The snippet-marker removal loop of `autodoc` (auto_docstring.py,
`use_snippet` false): repeatedly delete the first `"${NUMBER:"` and the
next `"}"` after its position.  The fuel covers every terminating run of
the Python loop (each iteration shortens the text). -/
def markerStripGo : Nat → Str → Str
  | 0, s => s
  | fl + 1, s =>
    match pyFind s markerStr with
    | none => s
    | some loc =>
      let s1 := s.take loc ++ s.drop (loc + markerStr.length)
      match pyFindFrom s1 [Char.ofNat 125] loc with
      | some b => markerStripGo fl (s1.take b ++ s1.drop (b + 1))
      | none => markerStripGo fl (s1.take (s1.length - 1) ++ s1)

/-- Marker removal entry point. -/
def markerStrip (s : Str) : Str := markerStripGo (s.length + 1) s

/-! ## The merge algorithm

`NapoleonDocstring._update_section`, `SphinxDocstring._update_section`
and the two `update_return_type` methods, over the heap-based model.
The loop bodies are factored into step functions (`nuStep`,
`nuDelStep`) folded over the fresh parameter list resp. the leftover
entries, mirroring the source loops statement by statement. -/

/-- Python `<` on strings (code-point lexicographic). -/
def strLexLt : Str → Str → Bool
  | [], [] => false
  | [], _ :: _ => true
  | _ :: _, [] => false
  | a :: as, b :: bs => if a = b then strLexLt as bs else decide (a < b)

/-- Stable insertion into a list sorted by the lowercased key
(`sorted(keys, key=str.lower)`; ties keep insertion order). -/
def insSortedLower (x : Str × Nat) : List (Str × Nat) → List (Str × Nat)
  | [] => [x]
  | y :: ys =>
    if strLexLt (pyLower x.1) (pyLower y.1) then x :: y :: ys
    else y :: insSortedLower x ys

/-- The `alpha_order` re-keying of `_update_section`. -/
def sortByLowerKey (l : List (Str × Nat)) : List (Str × Nat) :=
  l.foldl (fun acc x => insSortedLower x acc) []

/-- State of the fresh-parameter matching loop of `_update_section`. -/
structure NuSt where
  heap : Heap
  current : Args
  tagsSeen : List (Option Nat)
  newArgs : Args
deriving DecidableEq, Repr

/-- One iteration of the fresh-parameter loop of `_update_section`
(both styles; Sphinx passes no `other_sections`):

* fresh name found in `current_dict`: pop it, drop it if its tag was
  already claimed (in which case an explicitly annotated fresh entry
  makes Python run `param.types = def_param.types` on `None` —
  `AttributeError`, modelled as `none`), otherwise record the tag and
  overwrite the old entry's `types` exactly when the fresh entry is
  annotated;
* otherwise, a hit in one `other_section` refreshes that entry's type
  when the fresh one is annotated and skips the name; a hit in a second
  other section dereferences `None` — `AttributeError`;
* a surviving parameter is written into `new`. -/
def nuStep (otherArgs : List Args) (st : NuSt) (nv : Str × Nat) : Option NuSt :=
  let key := DKey.str nv.1
  let freshP := heapGet st.heap nv.2
  match argsGet st.current key with
  | some pidOld =>
    let current1 := argsRemove st.current key
    let pOld := heapGet st.heap pidOld
    if st.tagsSeen.contains pOld.tag then
      if freshP.annotated then none
      else some { st with current := current1 }
    else
      let heap1 := if freshP.annotated then
          heapSet st.heap pidOld { pOld with types := freshP.types }
        else st.heap
      some { heap := heap1, current := current1,
             tagsSeen := st.tagsSeen ++ [pOld.tag],
             newArgs := argsPut st.newArgs key pidOld }
  | none =>
    match otherArgs.filterMap (fun a => argsGet a key) with
    | [] => some { st with newArgs := argsPut st.newArgs key nv.2 }
    | [pidO] =>
      let heap1 := if freshP.annotated then
          heapSet st.heap pidO { heapGet st.heap pidO with types := freshP.types }
        else st.heap
      some { st with heap := heap1 }
    | _ :: _ :: _ => none

/-- The description-only carry-over loop of
`NapoleonDocstring._update_section`: every `descr_only` entry left in
`current_dict` is popped and appended to `new`.  (The Python loop pops
while iterating; under the pure-Python `OrderedDict` of the Sublime
Text 3 runtime this visits every entry, i.e. iterates the snapshot.) -/
def nuDescrCarry (heap : Heap) (current newArgs : Args) : Args × Args :=
  current.foldl
    (fun acc kv =>
      if (heapGet heap kv.2).descrOnly then
        (argsRemove acc.1 kv.1, argsPut acc.2 kv.1 kv.2)
      else acc)
    (current, newArgs)

/-- `list.remove(x)`: drop the first occurrence, `None` when absent
(Python raises `ValueError`). -/
def removeFirstStr (l : List Str) (x : Str) : Option (List Str) :=
  match l with
  | [] => none
  | y :: ys => if y = x then some ys else (removeFirstStr ys x).map (y :: ·)

/-- Lookup in the `deleted_tags` dictionary. -/
def tagGet (l : List (Option Nat × Nat)) (t : Option Nat) : Option Nat :=
  (l.find? (fun p => p.1 == t)).map Prod.snd

/-- State of the deleted-parameters loop of
`NapoleonDocstring._update_section`. -/
structure DelSt where
  heap : Heap
  delArgs : Args
  delTags : List (Option Nat × Nat)
deriving DecidableEq, Repr

/-- One iteration of the deleted-parameters loop: remove the key from
the old parameter's name list (`ValueError` when the key is an integer
or not among the names), then either append the name to the shadow
entry already created for this tag, or create a fresh shadow
`Parameter([key], val.types, val.description)` and store it in the
shadow section (overwriting a pre-existing entry under the same key,
which the source merely logs as a stronger warning). -/
def nuDelStep (st : DelSt) (kv : DKey × Nat) : Option DelSt :=
  let val := heapGet st.heap kv.2
  match kv.1 with
  | DKey.int _ => none
  | DKey.str ks =>
    match removeFirstStr val.names ks with
    | none => none
    | some names1 =>
      let heap1 := heapSet st.heap kv.2 { val with names := names1 }
      match tagGet st.delTags val.tag with
      | some pidD =>
        let pD := heapGet heap1 pidD
        some { st with heap := heapSet heap1 pidD { pD with names := pD.names ++ [ks] } }
      | none =>
        let newP : Param :=
          { names := [ks], types := val.types, description := val.description,
            tag := none, descrOnly := false, annotated := false, metaIndent := none }
        some { heap := heap1 ++ [newP],
               delArgs := argsPut st.delArgs kv.1 heap1.length,
               delTags := st.delTags ++ [(val.tag, heap1.length)] }

/-- `Docstring.finalize_section(heading, "")` for the Napoleon styles
(the merge only ever creates sections with empty text; both Napoleon
substyles parse `""` to an empty mapping). -/
def napFinalizeEmpty (heap : Heap) (d : DS) (heading : Str) : Heap × DS :=
  let hs := googleMkSec heap heading []
  (hs.1, dsPut d hs.2.aliasName (some hs.2))

/-- `NapoleonDocstring._update_section(params, sec_name, sec_alias,
del_prefix, alpha_order, other_sections)`.  `none` models an uncaught
Python exception along the way. -/
def napoleonUpdateSection (st : MState) (params : List (Str × Nat)) (secName : Str)
    (secAlias : Option Str) (delPref : Str) (alphaOrder : Bool)
    (otherSectionNames : List Str) : Option MState :=
  let al := match secAlias with
    | some a => if a = [] then secName else a
    | none => secName
  if ¬ sectionExB napoleonAliases st.ds secName ∧ params.length = 0 then some st
  else
    let st1 : MState :=
      if ¬ sectionExB napoleonAliases st.ds secName then
        let hd := napFinalizeEmpty st.heap st.ds al
        { heap := hd.1, ds := hd.2 }
      else st
    let otherArgs := otherSectionNames.filterMap (fun n =>
      if sectionExB napoleonAliases st1.ds n then
        match getSectionV napoleonAliases st1.ds n with
        | some (some sec) => some sec.args
        | _ => none
      else none)
    let params1 := if alphaOrder then sortByLowerKey params else params
    match getSectionV napoleonAliases st1.ds secName with
    | some (some sec0) =>
      match params1.foldlM (nuStep otherArgs)
          { heap := st1.heap, current := sec0.args, tagsSeen := [], newArgs := [] } with
      | none => none
      | some lst =>
        let carried := nuDescrCarry lst.heap lst.current lst.newArgs
        let current3 := argsRemove carried.1 (DKey.str [])
        let afterDel : Option (Heap × DS) :=
          if current3 = [] then some (lst.heap, st1.ds)
          else
            let delSecName := delPref ++ secName
            let hd1 :=
              if ¬ sectionExB napoleonAliases st1.ds (resolveAlias napoleonAliases delSecName)
              then napFinalizeEmpty lst.heap st1.ds delSecName
              else (lst.heap, st1.ds)
            match sectionFind napoleonAliases hd1.2 delSecName with
            | some (dKey, some dSec) =>
              match current3.foldlM nuDelStep
                  { heap := hd1.1, delArgs := dSec.args, delTags := [] } with
              | none => none
              | some dst =>
                some (dst.heap, dsPut hd1.2 dKey (some { dSec with args := dst.delArgs }))
            | _ => none
        match afterDel with
        | none => none
        | some hdF =>
          if carried.2 = [] then some { heap := hdF.1, ds := dsPut hdF.2 secName none }
          else
            match dsGet hdF.2 secName with
            | some (some secC) =>
              some { heap := hdF.1,
                     ds := dsPut hdF.2 secName (some { secC with args := carried.2 }) }
            | _ => none
    | _ => none

/-- `GoogleDocstring.PREFERRED_PARAMS_ALIAS`. -/
def googlePreferredParams : Str := "Args".data

/-- `NapoleonDocstring.update_parameters` (Google's preferred alias). -/
def napUpdateParameters (st : MState) (params : List (Str × Nat)) : Option MState :=
  napoleonUpdateSection st params "Parameters".data (some googlePreferredParams)
    "Deleted ".data false ["Other Parameters".data, "Keyword Parameters".data]

/-- `NapoleonDocstring.update_attributes`. -/
def napUpdateAttributes (st : MState) (params : List (Str × Nat)) (alphaOrder : Bool) :
    Option MState :=
  napoleonUpdateSection st params "Attributes".data none "Deleted ".data alphaOrder []

/-- `NapoleonDocstring.update_exceptions`. -/
def napUpdateExceptions (st : MState) (params : List (Str × Nat)) (alphaOrder : Bool) :
    Option MState :=
  napoleonUpdateSection st params "Raises".data none "No Longer ".data alphaOrder []

/-- `NapoleonDocstring.update_return_type(ret_name, ret_type,
default_description, keyword)`: an unknown keyword (anything but
`"yield"`/`"return"`, including the empty scan result) is logged and
treated as `"Returns"`; when the target section is absent, the first
existing one of Yields/Returns is popped and re-inserted under the
target name; the (possibly migrated or freshly created) section's first
parameter is then retyped / replaced. -/
def napUpdateReturnType (st : MState) (retName retType dfltDescription keyword : Str) :
    Option MState :=
  let secName := if keyword = "yield".data then "Yields".data else "Returns".data
  let st1 : MState :=
    if ¬ sectionExB napoleonAliases st.ds secName then
      if sectionExB napoleonAliases st.ds "Yields".data then
        match popSectionM napoleonAliases st.ds "Yields".data with
        | some (some sec, d1) => { st with ds := insertSection d1 secName sec }
        | _ => st
      else if sectionExB napoleonAliases st.ds "Returns".data then
        match popSectionM napoleonAliases st.ds "Returns".data with
        | some (some sec, d1) => { st with ds := insertSection d1 secName sec }
        | _ => st
      else st
    else st
  let st2 : MState :=
    if ¬ sectionExB napoleonAliases st1.ds secName ∧ (retName ≠ [] ∨ retType ≠ []) then
      let hd := napFinalizeEmpty st1.heap st1.ds secName
      { heap := hd.1, ds := hd.2 }
    else st1
  if sectionExB napoleonAliases st2.ds secName then
    match sectionFind napoleonAliases st2.ds secName with
    | some (k, some sec) =>
      if sec.args ≠ [] ∧ retType ≠ [] then
        match sec.args with
        | [] => none
        | kv :: _ =>
          let p0 := heapGet st2.heap kv.2
          let p1 :=
            if p0.descrOnly then { p0 with description := retType }
            else if truthyOpt p0.types then { p0 with types := some retType }
            else if p0.names ≠ [] then { p0 with names := [retType] }
            else p0
          some { st2 with heap := heapSet st2.heap kv.2 p1 }
      else if retName ≠ [] ∨ retType ≠ [] then
        if retName ≠ [] then
          let p : Param :=
            { names := [retName], types := some retType, description := dfltDescription,
              tag := none, descrOnly := false, annotated := false, metaIndent := none }
          some { heap := st2.heap ++ [p],
                 ds := dsPut st2.ds k (some { sec with args := [(DKey.str retName, st2.heap.length)] }) }
        else
          let p : Param :=
            { names := [retType], types := some [], description := dfltDescription,
              tag := none, descrOnly := false, annotated := false, metaIndent := none }
          some { heap := st2.heap ++ [p],
                 ds := dsPut st2.ds k (some { sec with args := [(DKey.str retType, st2.heap.length)] }) }
      else some st2
    | _ => none
  else some st2

/-! ## Sphinx merge model -/

/-- The default type snippet of the Sphinx parsers (`"${NUMBER:TYPE}"`). -/
def sphinxDefaultTypeSnip : Str := "$\x7bNUMBER:TYPE\x7d".data

/-- The default description snippet (`"${NUMBER:Description}"`). -/
def sphinxDefaultDescSnip : Str := "$\x7bNUMBER:Description\x7d".data

/-- The argument mapping a Sphinx section parser produces for empty text:
`__parser_common` / `__parser_other` yield an empty mapping, but
`__parser_common_returns` (Returns/Yields) builds one default entry
`Parameter([default_type], None, default_description, 0)` keyed by the
integer 0 even from empty text. -/
def sphinxEmptyArgs (heap : Heap) (al : Str) : Heap × Args :=
  if al = "Returns".data ∨ al = "Yields".data then
    (heap ++ [{ names := [sphinxDefaultTypeSnip], types := none,
                description := sphinxDefaultDescSnip, tag := some 0,
                descrOnly := false, annotated := false, metaIndent := some [] }],
     [(DKey.int 0, heap.length)])
  else (heap, [])

/-- `SphinxSection(heading, "")`. -/
def sphinxMkSecEmpty (heap : Heap) (heading : Str) : Heap × Sec :=
  let al := resolveAlias sphinxAliases heading
  if sphinxStructuredNames.contains al then
    let ha := sphinxEmptyArgs heap al
    (ha.1, { heading := heading, aliasName := al, structured := true, args := ha.2,
             rawText := [], sectionIndent := [] })
  else
    (heap, { heading := heading, aliasName := al, structured := false, args := [],
             rawText := [], sectionIndent := [] })

/-- `Docstring.finalize_section(heading, "")` for the Sphinx style. -/
def sphinxFinalizeEmpty (heap : Heap) (d : DS) (heading : Str) : Heap × DS :=
  let hs := sphinxMkSecEmpty heap heading
  (hs.1, dsPut d hs.2.aliasName (some hs.2))

/-- `SphinxDocstring._update_section(params, sec_name, alpha_order)`:
empty fresh list pops an existing section and returns; otherwise the
section is created on demand and the fresh-parameter loop runs — it is
the Napoleon loop without `other_sections` (so `nuStep []`), and there
is **no** description-only carry-over and **no** deleted-parameters
phase: names left in `current_dict` are simply dropped. -/
def sphinxUpdateSection (st : MState) (params : List (Str × Nat)) (secName : Str)
    (alphaOrder : Bool) : Option MState :=
  if params.length = 0 then
    if sectionExB sphinxAliases st.ds secName then
      match popSectionM sphinxAliases st.ds secName with
      | some pr => some { st with ds := pr.2 }
      | none => none
    else some st
  else
    let st1 : MState :=
      if ¬ sectionExB sphinxAliases st.ds secName then
        let hd := sphinxFinalizeEmpty st.heap st.ds secName
        { heap := hd.1, ds := hd.2 }
      else st
    let params1 := if alphaOrder then sortByLowerKey params else params
    match getSectionV sphinxAliases st1.ds secName with
    | some (some sec0) =>
      match params1.foldlM (nuStep [])
          { heap := st1.heap, current := sec0.args, tagsSeen := [], newArgs := [] } with
      | none => none
      | some lst =>
        if lst.newArgs = [] then some { heap := lst.heap, ds := dsPut st1.ds secName none }
        else
          match dsGet st1.ds secName with
          | some (some secC) =>
            some { heap := lst.heap,
                   ds := dsPut st1.ds secName (some { secC with args := lst.newArgs }) }
          | _ => none
    | _ => none

/-- `SphinxDocstring.update_parameters`. -/
def sphinxUpdateParameters (st : MState) (params : List (Str × Nat)) : Option MState :=
  sphinxUpdateSection st params "Parameters".data false

/-- `SphinxDocstring.update_attributes`. -/
def sphinxUpdateAttributes (st : MState) (params : List (Str × Nat)) (alphaOrder : Bool) :
    Option MState :=
  sphinxUpdateSection st params "Attributes".data alphaOrder

/-- `SphinxDocstring.update_exceptions`. -/
def sphinxUpdateExceptions (st : MState) (params : List (Str × Nat)) (alphaOrder : Bool) :
    Option MState :=
  sphinxUpdateSection st params "Raises".data alphaOrder

/-- The keyword spellings `SphinxDocstring.update_return_type` accepts
for a returning function. -/
def sphinxReturnKws : List Str :=
  ["return".data, "returns".data, "Return".data, "Returns".data]

/-- … and for a yielding function. -/
def sphinxYieldKws : List Str :=
  ["yield".data, "yields".data, "Yield".data, "Yields".data]

/-- `SphinxDocstring.update_return_type`: an unrecognized keyword pops
(deletes) any existing Yields and Returns sections and returns; a
recognized one migrates an existing other-keyword section (pop, create
the target empty, copy the argument mapping over, re-insert), creates
the target when still absent, and then retypes / fills the first
parameter exactly as the Napoleon version does. -/
def sphinxUpdateReturnType (st : MState) (retName retType dfltDescription keyword : Str) :
    Option MState :=
  if sphinxReturnKws.contains keyword ∨ sphinxYieldKws.contains keyword then
    let secName := if sphinxReturnKws.contains keyword then "Returns".data else "Yields".data
    let st1 : Option MState :=
      if ¬ sectionExB sphinxAliases st.ds secName then
        let migrateFrom : Option Str :=
          if sectionExB sphinxAliases st.ds "Yields".data then some "Yields".data
          else if sectionExB sphinxAliases st.ds "Returns".data then some "Returns".data
          else none
        match migrateFrom with
        | none => some st
        | some src =>
          match popSectionM sphinxAliases st.ds src with
          | some (some oldSec, d1) =>
            let hd := sphinxFinalizeEmpty st.heap d1 secName
            match getSectionV sphinxAliases hd.2 secName with
            | some (some newSec) =>
              let newSec1 := { newSec with args := oldSec.args }
              some { heap := hd.1, ds := insertSection hd.2 secName newSec1 }
            | _ => none
          | _ => none
      else some st
    match st1 with
    | none => none
    | some st1 =>
      let st2 : MState :=
        if ¬ sectionExB sphinxAliases st1.ds secName then
          let hd := sphinxFinalizeEmpty st1.heap st1.ds secName
          { heap := hd.1, ds := hd.2 }
        else st1
      if sectionExB sphinxAliases st2.ds secName then
        match sectionFind sphinxAliases st2.ds secName with
        | some (k, some sec) =>
          if sec.args ≠ [] ∧ retType ≠ [] then
            match sec.args with
            | [] => none
            | kv :: _ =>
              let p0 := heapGet st2.heap kv.2
              let p1 :=
                if p0.descrOnly then { p0 with description := retType }
                else if truthyOpt p0.types then { p0 with types := some retType }
                else if p0.names ≠ [] then { p0 with names := [retType] }
                else p0
              some { st2 with heap := heapSet st2.heap kv.2 p1 }
          else if retName ≠ [] ∨ retType ≠ [] then
            if retName ≠ [] then
              let p : Param :=
                { names := [retName], types := some retType,
                  description := dfltDescription, tag := none, descrOnly := false,
                  annotated := false, metaIndent := none }
              some { heap := st2.heap ++ [p],
                     ds := dsPut st2.ds k
                       (some { sec with args := [(DKey.str retName, st2.heap.length)] }) }
            else
              let p : Param :=
                { names := [retType], types := some [],
                  description := dfltDescription, tag := none, descrOnly := false,
                  annotated := false, metaIndent := none }
              some { heap := st2.heap ++ [p],
                     ds := dsPut st2.ds k
                       (some { sec with args := [(DKey.str retType, st2.heap.length)] }) }
          else some st2
        | _ => none
      else some st2
  else
    let d1 := if sectionExB sphinxAliases st.ds "Yields".data then
        match popSectionM sphinxAliases st.ds "Yields".data with
        | some pr => pr.2
        | none => st.ds
      else st.ds
    let d2 := if sectionExB sphinxAliases d1 "Returns".data then
        match popSectionM sphinxAliases d1 "Returns".data with
        | some pr => pr.2
        | none => d1
      else d1
    some { st with ds := d2 }

/-! ## Style detection

`detect_style` (docstring_styles.py): dedent, then try each class in
`STYLE_LOOKUP` order — Numpy, Google, Sphinx — each testing
`re.search(cls.SECTION_RE, docstr, re.MULTILINE)`. -/

/-- The three registered styles, in `STYLE_LOOKUP` insertion order. -/
inductive StyleT where
  | numpy
  | google
  | sphinx
deriving DecidableEq, Repr

/-- Google's detector: some line matches its heading pattern. -/
def googleDetectB (s : Str) : Bool := (splitOnNl s).any googleHeadingLine

/-- The heading-line part of `NumpyDocstring.SECTION_RE`
(`^([A-Za-z0-9][A-Za-z0-9 \t]*)\s*\n…`): an alphanumeric-headed line of
`[A-Za-z0-9 \t]`. -/
def numpyHeadingLine (l : Str) : Bool :=
  match l with
  | [] => false
  | c :: rest => isAlnumA c && rest.all (fun x => isAlnumA x || x == ' ' || x == '\t')

/-- The underline part (`-+\s*?$`): one or more dashes followed only by
blanks up to the end of the line. -/
def numpyDashLine (l : Str) : Bool :=
  match l with
  | [] => false
  | c :: _ =>
    c == '-' && (l.drop (l.takeWhile (fun x => x == '-')).length).all isIndentChar

/-- After a heading line, the `\s*\n` of the Numpy pattern may span any
run of whitespace-only lines before the dash line. -/
def numpyDashAfterWs : List Str → Bool
  | [] => false
  | l :: rest =>
    if numpyDashLine l then true
    else if wsOnlyLine l then numpyDashAfterWs rest
    else false

/-- `NumpyDocstring.detect_style`: a heading line followed (across
whitespace-only lines) by a dash line. -/
def numpyDetectB (s : Str) : Bool :=
  let lines := splitOnNl s
  (List.range lines.length).any
    (fun i => numpyHeadingLine (lines.getD i []) && numpyDashAfterWs (lines.drop (i + 1)))

/-- `\w`. -/
def isWordChar (c : Char) : Bool := c.isAlpha || c.isDigit || c == '_'

/-- The `( \w+)*:` tail of the Sphinx field pattern followed by `.+`
(at least one more character on the line), with fuel for termination. -/
def sphinxFieldTail : Nat → Str → Bool
  | 0, _ => false
  | _ + 1, ':' :: tail => tail ≠ []
  | fl + 1, ' ' :: cs =>
    let w := cs.takeWhile isWordChar
    w ≠ [] && sphinxFieldTail fl (cs.drop w.length)
  | _ + 1, _ => false

/-- A line matching `SphinxDocstring.SECTION_RE`
(`^(\.\. (?P<tag1>\w+)::|:(?P<tag2>\w+)( \w+)*:).+\s*$\r?\n?`):
either `.. word::` or `:word( word)*:`, followed by at least one
character. -/
def sphinxLineB (l : Str) : Bool :=
  (match l with
   | '.' :: '.' :: ' ' :: cs =>
     let w := cs.takeWhile isWordChar
     w ≠ [] &&
       (match cs.drop w.length with
        | ':' :: ':' :: tail => tail ≠ []
        | _ => false)
   | _ => false) ||
  (match l with
   | ':' :: cs =>
     let w := cs.takeWhile isWordChar
     w ≠ [] && sphinxFieldTail (l.length + 1) (cs.drop w.length)
   | _ => false)

/-- `SphinxDocstring.detect_style`. -/
def sphinxDetectB (s : Str) : Bool := (splitOnNl s).any sphinxLineB

/-- `detect_style(docstr)` (docstring_styles.py): dedent, then return the
first style in `STYLE_LOOKUP` order — `numpy`, `google`, `sphinx` —
whose `detect_style` matches, else `None`. -/
def detectStyle (s : Str) : Option StyleT :=
  let d := dedentDocstr s 1
  if numpyDetectB d then some StyleT.numpy
  else if googleDetectB d then some StyleT.google
  else if sphinxDetectB d then some StyleT.sphinx
  else none

/-! ## Attribute type scan (auto_docstring.py) -/

/-- `"${{NUMBER:{0}}}".format(t)`. -/
def snippetWrap (t : Str) : Str := markerStr ++ t ++ [Char.ofNat 125]

/-- `get_attr_type(value, default_type, existing_type)`
(auto_docstring.py).  `inferCN` abstracts
`ast.literal_eval(value).__class__.__name__`: `some cn` when the
evaluation succeeds with a value of class `cn`, `none` when it raises
the caught `ValueError`/`SyntaxError`. -/
def getAttrType (inferCN : Str → Option Str) (value dflt existing : Str) : Str :=
  if existing ≠ dflt ∧ existing ≠ snippetWrap dflt then existing
  else
    match inferCN (pyStrip value) with
    | some cn => if cn = "NoneType".data then dflt else cn
    | none => dflt

/-- One assignment of the attribute loops of `parse_class_attributes` /
`parse_module_attributes` (auto_docstring.py): the model receives the
extracted `(name, right-hand side)` pairs (the buffer scanning,
scope filtering and `split('=')` extraction are the host editor's side);
underscore-prefixed names are skipped; the stored type is re-derived via
`get_attr_type` from the previously stored type (or the default), kept
tag-stable, snippet-wrapped if not already, and assigned. -/
def attrStep (inferCN : Str → Option Str) (dflt dfltDesc : Str)
    (attribs : List (Str × Param)) (nv : Str × Str) : List (Str × Param) :=
  if pyStartsWith nv.1 "_".data then attribs
  else
    let prev := (attribs.find? (fun p => p.1 == nv.1)).map Prod.snd
    let existing := match prev with
      | some p => p.types.getD []
      | none => dflt
    let paramtype := getAttrType inferCN nv.2 dflt existing
    let tag := match prev with
      | some p => p.tag
      | none => some attribs.length
    let wrapped := if pyStartsWith paramtype markerStr then paramtype
      else snippetWrap paramtype
    let p : Param :=
      { names := [nv.1], types := some wrapped, description := dfltDesc,
        tag := tag, descrOnly := false, annotated := false, metaIndent := none }
    if (attribs.find? (fun q => q.1 == nv.1)).isSome then
      attribs.map (fun q => if q.1 == nv.1 then (nv.1, p) else q)
    else attribs ++ [(nv.1, p)]

/-- The whole attribute scan over a list of assignments. -/
def processAttrs (inferCN : Str → Option Str) (dflt dfltDesc : Str)
    (l : List (Str × Str)) : List (Str × Param) :=
  l.foldl (attrStep inferCN dflt dfltDesc) []

/-! ## The merge-and-format operation (autodoc, auto_docstring.py) -/

/-- Append freshly created `Parameter` objects to the heap and return
their ids keyed by name (the fresh dict built by
`parse_function_params` / `parse_function_exceptions`). -/
def allocParams (heap : Heap) (l : List (Str × Param)) : Heap × List (Str × Nat) :=
  l.foldl (fun acc nv => (acc.1 ++ [nv.2], acc.2 ++ [(nv.1, acc.1.length)])) (heap, [])

/-- The fresh `Parameter` that `parse_function_params`
(auto_docstring.py) builds for a plain positional parameter without
annotation or default, under the default settings
(`default_type="TYPE"`, `default_description="Description"`):
`Parameter([name], "${NUMBER:TYPE}", "${NUMBER:Description}", tag=i,
annotated=False)`. -/
def freshPlainParam (name : Str) (tag : Nat) : Param :=
  { names := [name], types := some sphinxDefaultTypeSnip,
    description := sphinxDefaultDescSnip, tag := some tag,
    descrOnly := false, annotated := false, metaIndent := none }

/-- One `autodoc` run (auto_docstring.py) on an existing Google
docstring of a plain `def` under the default settings
(`use_snippet=False`, `template_order=False`, `keep_previous=False`,
`sort_exceptions=True`): parse the old docstring, allocate the fresh
parameter and exception objects, run `update_parameters`,
`update_return_type` (an existing docstring gets `ret_name = ret_type =
""` when the declaration has no return annotation) and
`update_exceptions`, format (same-style `desired_style(ds)` is the
identity on the model), append the body indent, and strip the snippet
markers.  `none` models an uncaught exception. -/
def mergeAndFormatG (oldDocstr : Str) (fresh : List (Str × Param))
    (excepts : List (Str × Param)) (retKeyword : Str) (bodyIndent : Str) :
    Option Str :=
  let st0 := googleParse oldDocstr
  let hp := allocParams st0.heap fresh
  match napUpdateParameters { heap := hp.1, ds := st0.ds } hp.2 with
  | none => none
  | some st2 =>
    match napUpdateReturnType st2 [] [] "Description".data retKeyword with
    | none => none
    | some st3 =>
      let he := allocParams st3.heap excepts
      match napUpdateExceptions { heap := he.1, ds := st3.ds } he.2 true with
      | none => none
      | some st4 =>
        some (markerStrip (googleFormat st4 bodyIndent ++ bodyIndent))

/-! ## Inspection helpers and concrete states for the claims -/

/-- Some present section of the state references a parameter whose
description is `d`. -/
def descrReachable (st : MState) (d : Str) : Bool :=
  st.ds.sections.any (fun p =>
    match p.2 with
    | some sec => sec.args.any (fun kv => (heapGet st.heap kv.2).description == d)
    | none => false)

/-- Some present section of the state has an entry under key `k`. -/
def keyReachable (st : MState) (k : DKey) : Bool :=
  st.ds.sections.any (fun p =>
    match p.2 with
    | some sec => (argsGet sec.args k).isSome
    | none => false)

/-- Lookup in an attribute dictionary (`processAttrs` result). -/
def attrsGet (l : List (Str × Param)) (k : Str) : Option Param :=
  (l.find? (fun p => p.1 == k)).map Prod.snd

/-- A plain unstructured Summary section shared by the example states. -/
def cSummarySec : Sec :=
  { heading := "Summary".data, aliasName := "Summary".data, structured := false,
    args := [], rawText := "Summary".data, sectionIndent := [] }

/-- C4 / C3: a Google docstring documenting parameter `b` with type
`int` and an empty description (note the grammatical `name (type):`
line with nothing after the colon). -/
def c4Doc : Str := "Summary\n\nArgs:\n    b (int):\n".data

/-- C4: the fresh parameter list of `def f(b):` (built as
`parse_function_params` builds it). -/
def c4Fresh : List (Str × Param) := [("b".data, freshPlainParam "b".data 0)]

/-- C4: output of the first `autodoc` run on `c4Doc`. -/
def c4Out1 : Str := "Summary\n\nArgs:\n    b (int)\n".data

/-- C4: output of the second run, on the first run's output. -/
def c4Out2 : Str := "Summary\n\nArgs:\n    b (TYPE): Description\n    b (int)\n".data

/-- C3: a Google docstring with no trailing newline. -/
def c3Doc : Str := "Summary\n\nArgs:\n    a (int): x".data

/-- C1: the documented-but-removed parameter of the Sphinx example. -/
def c1OldParam : Param :=
  { names := ["old".data], types := some "str".data, description := "stale".data,
    tag := some 0, descrOnly := false, annotated := false, metaIndent := some [] }

/-- C1: a Sphinx Parameters section documenting only `old`. -/
def c1ParamsSec : Sec :=
  { heading := "Parameters".data, aliasName := "Parameters".data, structured := true,
    args := [(DKey.str "old".data, 0)], rawText := [], sectionIndent := [] }

/-- C1: a Sphinx docstring model with `old` documented; the fresh
signature will be `(a)`. -/
def c1St : MState :=
  { heap := [c1OldParam, freshPlainParam "a".data 0],
    ds := { sections := [("Summary".data, some cSummarySec),
                         ("Parameters".data, some c1ParamsSec)],
            trailingNewlines := 1 } }

/-- C2: one old `Parameter` documented under the two names `a, b`
(a multi-name block), reachable under both keys as the same object. -/
def c2Shared : Param :=
  { names := ["a".data, "b".data], types := some "int".data,
    description := "shared".data, tag := some 0, descrOnly := false,
    annotated := false, metaIndent := some [] }

/-- C2: the Google Parameters section holding the shared entry twice. -/
def c2ParamsSec : Sec :=
  { heading := "Args".data, aliasName := "Parameters".data, structured := true,
    args := [(DKey.str "a".data, 0), (DKey.str "b".data, 0)], rawText := [],
    sectionIndent := "    ".data }

/-- C2: docstring model plus the fresh parameters `a`, `b` (heap ids 1
and 2, neither annotated). -/
def c2St : MState :=
  { heap := [c2Shared, freshPlainParam "a".data 0, freshPlainParam "b".data 1],
    ds := { sections := [("Summary".data, some cSummarySec),
                         ("Parameters".data, some c2ParamsSec)],
            trailingNewlines := 1 } }

/-- C5/C9: the single structured entry of an existing Returns section. -/
def c5RetParam : Param :=
  { names := ["int".data], types := some [], description := "the result".data,
    tag := some 0, descrOnly := false, annotated := false, metaIndent := some [] }

/-- C5/C9: an existing Returns section. -/
def c5RetSec : Sec :=
  { heading := "Returns".data, aliasName := "Returns".data, structured := true,
    args := [(DKey.int 0, 0)], rawText := [], sectionIndent := "    ".data }

/-- C5: a docstring model with a Returns section, about to be updated
with an empty scanned keyword. -/
def c5St : MState :=
  { heap := [c5RetParam],
    ds := { sections := [("Summary".data, some cSummarySec),
                         ("Returns".data, some c5RetSec)],
            trailingNewlines := 1 } }

/-- C9: the entry of an existing Yields section. -/
def c9YieldParam : Param :=
  { names := ["gen".data], types := some [], description := "the yield".data,
    tag := some 0, descrOnly := false, annotated := false, metaIndent := some [] }

/-- C9: an existing Yields section. -/
def c9YieldSec : Sec :=
  { heading := "Yields".data, aliasName := "Yields".data, structured := true,
    args := [(DKey.int 0, 1)], rawText := [], sectionIndent := "    ".data }

/-- C9: a docstring model that has **both** a Returns and a Yields
section when the scanned keyword is `yield`. -/
def c9St : MState :=
  { heap := [c5RetParam, c9YieldParam],
    ds := { sections := [("Summary".data, some cSummarySec),
                         ("Returns".data, some c5RetSec),
                         ("Yields".data, some c9YieldSec)],
            trailingNewlines := 1 } }

/-- C6: text whose Numpy heading (any number of dashes) and Google
heading both match. -/
def c6Text : Str := "Parameters\n---\n\nArgs:\n".data

/-- Modelled from the spec (§4.2), for comparison with the code's
`detect_style`: the spec's Numpy recognizer demands a heading line
immediately followed by a line of `'-'` repeated exactly
`len(heading)` times. -/
def numpyDetectSpecModel (s : Str) : Bool :=
  let lines := splitOnNl s
  (List.range lines.length).any (fun i =>
    numpyHeadingLine (lines.getD i []) &&
      lines.getD (i + 1) [] == List.replicate (lines.getD i []).length '-')

/-- Modelled from the spec (§4.2), for comparison with the code's
`detect_style`: priority order Google, then Numpy, then Sphinx. -/
def detectStyleSpecModel (s : Str) : Option StyleT :=
  let d := dedentDocstr s 1
  if googleDetectB d then some StyleT.google
  else if numpyDetectSpecModel d then some StyleT.numpy
  else if sphinxDetectB d then some StyleT.sphinx
  else none

/-- C9 (amended-theorem witness data): a minimal Returns section entry. -/
def c9MigParam : Param :=
  { names := ["int".data], types := none, description := "the result".data,
    tag := some 0, descrOnly := false, annotated := false, metaIndent := some [] }

/-- C9 (amended-theorem witness data): a Returns section with one entry. -/
def c9MigSec : Sec :=
  { heading := "Returns".data, aliasName := "Returns".data, structured := true,
    args := [(DKey.int 0, 0)], rawText := [], sectionIndent := [] }

/-- C9 (amended-theorem witness data): a state holding only that
Returns section. -/
def c9MigSt : MState :=
  { heap := [c9MigParam],
    ds := { sections := [("Returns".data, some c9MigSec)], trailingNewlines := 1 } }

/-- C7 (witness data): a state with one fresh parameter and no sections. -/
def c7WSt : MState :=
  { heap := [{ names := ["x".data], types := some "int".data, description := "dd".data,
               tag := none, descrOnly := false, annotated := false, metaIndent := none }],
    ds := { sections := [], trailingNewlines := 1 } }

/-- C7 (witness data): the section the Sphinx merge stores for `c7WSt`. -/
def c7WitSec : Sec :=
  { heading := "Parameters".data, aliasName := "Parameters".data, structured := true,
    args := [(DKey.str "x".data, 0)], rawText := [], sectionIndent := [] }

/-- C7 (witness data): the merged state for `c7WSt`. -/
def c7WStOut : MState :=
  { heap := c7WSt.heap,
    ds := { sections := [("Parameters".data, some c7WitSec)], trailingNewlines := 1 } }

/-- C8 (witness data): a heap holding one description-only entry. -/
def c8WHeap : Heap :=
  [{ names := [], types := none, description := "free prose".data,
     tag := some 0, descrOnly := true, annotated := false, metaIndent := some [] }]

/-- C8 (witness data): the old mapping left after the matching pass. -/
def c8WCur : Args := [(DKey.int 0, 0)]

/-- C1 (witness data): the old parameter kept in the docstring. -/
def c1WParam : Param :=
  { names := ["old".data], types := some "int".data, description := "kept docs".data,
    tag := some 0, descrOnly := false, annotated := false, metaIndent := some [] }

/-- C1 (witness data): a Parameters section holding only `old`. -/
def c1WSec : Sec :=
  { heading := "Parameters".data, aliasName := "Parameters".data, structured := true,
    args := [(DKey.str "old".data, 0)], rawText := [], sectionIndent := "    ".data }

/-- C1 (witness data): the docstring state before the merge. -/
def c1WSt : MState :=
  { heap := [c1WParam],
    ds := { sections := [("Parameters".data, some c1WSec)], trailingNewlines := 1 } }

/-- C1 (witness data): the merged state: `old` moved to the shadow
section with its description intact. -/
def c1WOut : MState :=
  { heap := [{ names := [], types := some "int".data, description := "kept docs".data,
               tag := some 0, descrOnly := false, annotated := false,
               metaIndent := some [] },
             { names := ["old".data], types := some "int".data,
               description := "kept docs".data, tag := none, descrOnly := false,
               annotated := false, metaIndent := none }],
    ds := { sections := [("Parameters".data, none),
              ("Deleted Parameters".data, some
                { heading := "Deleted Parameters".data,
                  aliasName := "Deleted Parameters".data, structured := true,
                  args := [(DKey.str "old".data, 1)], rawText := [],
                  sectionIndent := "    ".data })],
            trailingNewlines := 1 } }

/-! # Theorems -/

/-- C3 (counterexample): parsing a Google docstring and formatting it
back with the same (empty) indentation context is **not** byte-identical
in general: the formatter appends a missing final newline (and, here,
also drops the colon of a parameter line with an empty description). -/
theorem C3_roundtrip_cex :
    googleFormat (googleParse c3Doc) [] ≠ c3Doc := by decide

set_option maxRecDepth 10000 in
/-- C4 (code bug): the merge-and-format operation is **not** idempotent.
On a Google docstring whose parameter `b` has a type but an empty
description, the first run formats the entry as `b (int)` (no colon);
the second run cannot re-parse that line as a parameter, archives it as
description-only prose and adds a fresh `b (TYPE): Description` entry,
so the two runs' outputs differ — contradicting the spec's merge
idempotence property. -/
theorem C4_merge_format_not_idempotent :
    mergeAndFormatG c4Doc c4Fresh [] "return".data [] = some c4Out1 ∧
    mergeAndFormatG c4Out1 c4Fresh [] "return".data [] = some c4Out2 ∧
    c4Out1 ≠ c4Out2 :=
  ⟨by decide, by decide, by decide⟩

/-- C1 (counterexample): in the Sphinx style, an old entry (`old`, with
description `stale`) absent from the fresh list is silently discarded by
`SphinxDocstring._update_section`: afterwards no section references its
description, no `Deleted Parameters` section exists, and the key is
gone. -/
theorem C1_sphinx_discards_cex :
    (sphinxUpdateParameters c1St [("a".data, 1)]).map
        (fun st => (descrReachable st "stale".data,
                    dsGet st.ds "Deleted Parameters".data,
                    keyReachable st (DKey.str "old".data)))
      = some (false, none, false) := by decide

/-- C2 (counterexample): when two fresh names (`a`, `b`) both map to the
same old `Parameter` (one multi-name block, one shared tag), the second
claimant `b` is **not** reused: the tag-collision guard drops it, so `b`
is absent from every section of the result even though `b` was a key of
the old mapping. -/
theorem C2_tag_collision_cex :
    (napUpdateParameters c2St [("a".data, 1), ("b".data, 2)]).map
        (fun st => (keyReachable st (DKey.str "a".data),
                    keyReachable st (DKey.str "b".data)))
      = some (true, false) := by decide

/-- C5 (counterexample): with an existing Returns section and an empty
scanned keyword (neither `return` nor `yield` found),
`NapoleonDocstring.update_return_type` keeps the section **in place as a
live Returns section** (its content still reachable) and creates no
`No Longer …` shadow section — the claimed relocation does not happen. -/
theorem C5_no_shadow_relocation_cex :
    (napUpdateReturnType c5St [] "str".data "Description".data []).map
        (fun st => (sectionExB napoleonAliases st.ds "Returns".data,
                    dsGet st.ds "No Longer Returned".data,
                    dsGet st.ds "No Longer Yielded".data,
                    descrReachable st "the result".data))
      = some (true, none, none, true) := by decide

/-- C9 (counterexample): when the docstring has **both** a Returns and a
Yields section and the scanned keyword is `yield`, no migration happens
(the target exists), and the output keeps both sections — not "exactly
one of the two". -/
theorem C9_duplicate_pair_cex :
    (napUpdateReturnType c9St [] "str".data "Description".data "yield".data).map
        (fun st => (sectionExB napoleonAliases st.ds "Returns".data,
                    sectionExB napoleonAliases st.ds "Yields".data))
      = some (true, true) := by decide

/-- C6 (counterexample): on a text containing a dashed Numpy heading
(3 dashes under a 10-character heading) and a Google heading, the code
returns Numpy — `STYLE_LOOKUP` order is Numpy, Google, Sphinx and the
dash count is `-+` — while the spec's detector (Google first; Numpy
requiring exactly `len(heading)` dashes) returns Google. -/
theorem C6_priority_cex :
    detectStyle c6Text = some StyleT.numpy ∧
    detectStyleSpecModel c6Text = some StyleT.google ∧
    detectStyleSpecModel c6Text ≠ detectStyle c6Text :=
  ⟨by decide, by decide, by decide⟩

/-! ### Association-list lemmas (dictionary semantics) -/

theorem findq_put_self {α β : Type} [BEq α] [LawfulBEq α] (l : List (α × β)) (k : α) (v : β)
    (h : (l.find? (fun p => p.1 == k)).isSome = true) :
    (l.map (fun p => if p.1 == k then (k, v) else p)).find? (fun p => p.1 == k) = some (k, v) := by
  induction l with
  | nil => simp at h
  | cons x xs ih =>
    cases hx : (x.1 == k) with
    | true =>
      simp only [List.map_cons, if_pos hx, List.find?_cons, beq_self_eq_true]
    | false =>
      simp only [List.find?_cons, hx] at h
      simp only [List.map_cons, List.find?_cons, hx, Bool.false_eq_true, if_false]
      exact ih h

theorem findq_append_new {α β : Type} [BEq α] [LawfulBEq α] (l : List (α × β)) (k : α) (v : β)
    (h : l.find? (fun p => p.1 == k) = none) :
    (l ++ [(k, v)]).find? (fun p => p.1 == k) = some (k, v) := by
  induction l with
  | nil => simp [List.find?_cons]
  | cons x xs ih =>
    cases hx : (x.1 == k) with
    | true =>
      simp only [List.find?_cons, hx] at h
      exact Option.noConfusion h
    | false =>
      simp only [List.find?_cons, hx] at h
      simp only [List.cons_append, List.find?_cons, hx]
      exact ih h

theorem findq_put_ne {α β : Type} [BEq α] [LawfulBEq α] (l : List (α × β)) (k k' : α) (v : β)
    (hne : ¬ k' = k) :
    (l.map (fun p => if p.1 == k then (k, v) else p)).find? (fun p => p.1 == k') =
      l.find? (fun p => p.1 == k') := by
  have hkk : ((k : α) == k') = false := by
    simp only [beq_eq_false_iff_ne, ne_eq]
    intro e; exact hne e.symm
  induction l with
  | nil => simp
  | cons x xs ih =>
    cases hx : (x.1 == k) with
    | true =>
      have hk : x.1 = k := eq_of_beq hx
      simp only [List.map_cons, List.find?_cons, hk, beq_self_eq_true, eq_self_iff_true,
        if_true, hkk]
      exact ih
    | false =>
      simp only [List.map_cons, List.find?_cons, hx, Bool.false_eq_true, if_false]
      cases hxk : (x.1 == k') with
      | true => rfl
      | false => exact ih

theorem findq_append_ne {α β : Type} [BEq α] [LawfulBEq α] (l : List (α × β)) (k k' : α) (v : β)
    (hne : ¬ k' = k) :
    (l ++ [(k, v)]).find? (fun p => p.1 == k') = l.find? (fun p => p.1 == k') := by
  have hkk : ((k : α) == k') = false := by
    simp only [beq_eq_false_iff_ne, ne_eq]
    intro e; exact hne e.symm
  induction l with
  | nil => simp [List.find?_cons, hkk]
  | cons x xs ih =>
    simp only [List.cons_append, List.find?_cons]
    cases hxk : (x.1 == k') with
    | true => rfl
    | false => exact ih

theorem findq_filter_self {α β : Type} [BEq α] [LawfulBEq α] (l : List (α × β)) (k : α) :
    (l.filter (fun p => !(p.1 == k))).find? (fun p => p.1 == k) = none := by
  induction l with
  | nil => simp
  | cons x xs ih =>
    cases hx : (x.1 == k) with
    | true =>
      simp only [List.filter_cons, hx, Bool.not_true, Bool.false_eq_true, if_false]
      exact ih
    | false =>
      simp only [List.filter_cons, List.find?_cons, hx, Bool.not_false, eq_self_iff_true,
        if_true]
      exact ih

theorem findq_filter_ne {α β : Type} [BEq α] [LawfulBEq α] (l : List (α × β)) (k k' : α)
    (hne : ¬ k' = k) :
    (l.filter (fun p => !(p.1 == k))).find? (fun p => p.1 == k') =
      l.find? (fun p => p.1 == k') := by
  induction l with
  | nil => simp
  | cons x xs ih =>
    cases hx : (x.1 == k) with
    | true =>
      have hk : x.1 = k := eq_of_beq hx
      have hx' : (x.1 == k') = false := by
        simp only [hk, beq_eq_false_iff_ne, ne_eq]
        intro e; exact hne e.symm
      simp only [List.filter_cons, hx, Bool.not_true, Bool.false_eq_true, if_false,
        List.find?_cons, hx']
      exact ih
    | false =>
      simp only [List.filter_cons, List.find?_cons, hx, Bool.not_false, eq_self_iff_true,
        if_true]
      cases hxk : (x.1 == k') with
      | true => rfl
      | false => exact ih

theorem dsGet_eq_find (d : DS) (k : Str) :
    dsGet d k = (d.sections.find? (fun p => p.1 == k)).map Prod.snd := rfl

theorem dsGet_dsPut_self (d : DS) (k : Str) (v : Option Sec) :
    dsGet (dsPut d k v) k = some v := by
  unfold dsPut
  cases hf : d.sections.find? (fun p => p.1 == k) with
  | some x =>
    have h : (dsGet d k).isSome = true := by rw [dsGet_eq_find, hf]; rfl
    simp only [h, if_true]
    show ((d.sections.map (fun p => if p.1 == k then (k, v) else p)).find?
        (fun p => p.1 == k)).map Prod.snd = some v
    rw [findq_put_self _ _ _ (by rw [hf]; rfl)]
    rfl
  | none =>
    have h : (dsGet d k).isSome = false := by rw [dsGet_eq_find, hf]; rfl
    simp only [h, Bool.false_eq_true, if_false]
    show ((d.sections ++ [(k, v)]).find? (fun p => p.1 == k)).map Prod.snd = some v
    rw [findq_append_new _ _ _ hf]
    rfl

theorem dsGet_dsPut_ne (d : DS) (k k' : Str) (v : Option Sec) (hne : ¬ k' = k) :
    dsGet (dsPut d k v) k' = dsGet d k' := by
  unfold dsPut
  by_cases h : (dsGet d k).isSome
  · simp only [h, if_true]
    show ((d.sections.map (fun p => if p.1 == k then (k, v) else p)).find?
        (fun p => p.1 == k')).map Prod.snd = dsGet d k'
    rw [findq_put_ne _ _ _ _ hne]
    rfl
  · simp only [h, Bool.false_eq_true, if_false]
    show ((d.sections ++ [(k, v)]).find? (fun p => p.1 == k')).map Prod.snd = dsGet d k'
    rw [findq_append_ne _ _ _ _ hne]
    rfl

theorem dsGet_dsRemove_self (d : DS) (k : Str) :
    dsGet (dsRemove d k) k = none := by
  show ((d.sections.filter (fun p => !(p.1 == k))).find? (fun p => p.1 == k)).map Prod.snd = none
  rw [findq_filter_self]
  rfl

theorem dsGet_dsRemove_ne (d : DS) (k k' : Str) (hne : ¬ k' = k) :
    dsGet (dsRemove d k) k' = dsGet d k' := by
  show ((d.sections.filter (fun p => !(p.1 == k))).find? (fun p => p.1 == k')).map Prod.snd = _
  rw [findq_filter_ne _ _ _ hne]
  rfl

theorem argsGet_eq_find (a : Args) (k : DKey) :
    argsGet a k = (a.find? (fun p => p.1 == k)).map Prod.snd := rfl

theorem argsGet_argsPut_self (a : Args) (k : DKey) (v : Nat) :
    argsGet (argsPut a k v) k = some v := by
  unfold argsPut
  cases hf : a.find? (fun p => p.1 == k) with
  | some x =>
    have h : (argsGet a k).isSome = true := by rw [argsGet_eq_find, hf]; rfl
    simp only [h, if_true]
    show ((a.map (fun p => if p.1 == k then (k, v) else p)).find?
        (fun p => p.1 == k)).map Prod.snd = some v
    rw [findq_put_self _ _ _ (by rw [hf]; rfl)]
    rfl
  | none =>
    have h : (argsGet a k).isSome = false := by rw [argsGet_eq_find, hf]; rfl
    simp only [h, Bool.false_eq_true, if_false]
    show ((a ++ [(k, v)]).find? (fun p => p.1 == k)).map Prod.snd = some v
    rw [findq_append_new _ _ _ hf]
    rfl

theorem argsGet_argsPut_ne (a : Args) (k k' : DKey) (v : Nat) (hne : ¬ k' = k) :
    argsGet (argsPut a k v) k' = argsGet a k' := by
  unfold argsPut
  by_cases h : (argsGet a k).isSome
  · simp only [h, if_true]
    show ((a.map (fun p => if p.1 == k then (k, v) else p)).find?
        (fun p => p.1 == k')).map Prod.snd = argsGet a k'
    rw [findq_put_ne _ _ _ _ hne]
    rfl
  · simp only [h, Bool.false_eq_true, if_false]
    show ((a ++ [(k, v)]).find? (fun p => p.1 == k')).map Prod.snd = argsGet a k'
    rw [findq_append_ne _ _ _ _ hne]
    rfl

theorem argsGet_argsRemove_self (a : Args) (k : DKey) :
    argsGet (argsRemove a k) k = none := by
  show ((a.filter (fun p => !(p.1 == k))).find? (fun p => p.1 == k)).map Prod.snd = none
  rw [findq_filter_self]
  rfl

theorem argsGet_argsRemove_ne (a : Args) (k k' : DKey) (hne : ¬ k' = k) :
    argsGet (argsRemove a k) k' = argsGet a k' := by
  show ((a.filter (fun p => !(p.1 == k))).find? (fun p => p.1 == k')).map Prod.snd = _
  rw [findq_filter_ne _ _ _ hne]
  rfl

theorem heapGet_heapSet_self (h : Heap) (p : Nat) (v : Param) (hp : p < h.length) :
    heapGet (heapSet h p v) p = v := by
  unfold heapGet heapSet
  rw [List.getD_eq_getElem?_getD, List.getElem?_set_self (by omega)]
  rfl

theorem heapGet_heapSet_ne (h : Heap) (p q : Nat) (v : Param) (hne : q ≠ p) :
    heapGet (heapSet h p v) q = heapGet h q := by
  unfold heapGet heapSet
  rw [List.getD_eq_getElem?_getD, List.getD_eq_getElem?_getD, List.getElem?_set_ne (by omega)]

/-! ### Section-lookup helper lemmas -/

theorem sectionFind_direct (aliases : List (Str × Str)) (d : DS) (name : Str)
    (v : Option Sec) (h : dsGet d name = some v) :
    sectionFind aliases d name = some (name, v) := by
  unfold sectionFind
  rw [h]

theorem sectionFind_no_alias (aliases : List (Str × Str)) (d : DS) (name : Str)
    (hd : dsGet d name = none) (ha : alistGet aliases name = none) :
    sectionFind aliases d name = none := by
  unfold sectionFind
  rw [hd, ha]
  rfl

theorem sectionExB_eq_of_no_alias (aliases : List (Str × Str)) (d : DS) (name : Str)
    (ha : alistGet aliases name = none) :
    sectionExB aliases d name =
      (match dsGet d name with
       | some (some _) => true
       | _ => false) := by
  unfold sectionExB
  cases hd : dsGet d name with
  | some v =>
    rw [sectionFind_direct aliases d name v hd]
    cases v <;> rfl
  | none =>
    rw [sectionFind_no_alias aliases d name hd ha]

theorem popSectionM_direct (aliases : List (Str × Str)) (d : DS) (name : Str)
    (v : Option Sec) (h : dsGet d name = some v) :
    popSectionM aliases d name = some (v, dsRemove d name) := by
  unfold popSectionM
  rw [sectionFind_direct aliases d name v h]

/-- C6 (amended): `detect_style` dedents and then tries the registered
styles in `STYLE_LOOKUP` order — **Numpy first, then Google, then
Sphinx** (not the order the claim states) — returning the first whose
heading pattern matches anywhere (with the Numpy recognizer accepting
any positive run of dashes), and `None` exactly when no pattern
matches. -/
theorem C6_detect_priority (s : Str) :
    (detectStyle s = none ↔
      numpyDetectB (dedentDocstr s 1) = false ∧
      googleDetectB (dedentDocstr s 1) = false ∧
      sphinxDetectB (dedentDocstr s 1) = false) ∧
    (numpyDetectB (dedentDocstr s 1) = true → detectStyle s = some StyleT.numpy) ∧
    (numpyDetectB (dedentDocstr s 1) = false → googleDetectB (dedentDocstr s 1) = true →
      detectStyle s = some StyleT.google) ∧
    (numpyDetectB (dedentDocstr s 1) = false → googleDetectB (dedentDocstr s 1) = false →
      sphinxDetectB (dedentDocstr s 1) = true → detectStyle s = some StyleT.sphinx) := by
  unfold detectStyle
  by_cases hn : numpyDetectB (dedentDocstr s 1) = true <;>
    by_cases hg : googleDetectB (dedentDocstr s 1) = true <;>
      by_cases hs : sphinxDetectB (dedentDocstr s 1) = true <;>
        simp_all

/-- C6 witness: a text with a dashed heading is detected as Numpy even
though its Google pattern also matches later in the text. -/
theorem C6_detect_priority_witness :
    detectStyle "Parameters\n---\n\nArgs:".data = some StyleT.numpy :=
  (C6_detect_priority "Parameters\n---\n\nArgs:".data).2.1 (by decide)

theorem dsRemove_sublist (d : DS) (k : Str) :
    (dsRemove d k).sections.Sublist d.sections :=
  List.filter_sublist _

theorem sphinxPopStep (d : DS) (name : Str) (ha : alistGet sphinxAliases name = none) :
    ∃ d', (if sectionExB sphinxAliases d name = true then
          match popSectionM sphinxAliases d name with
          | some pr => pr.2
          | none => d
        else d) = d' ∧
      sectionExB sphinxAliases d' name = false ∧
      (∀ n', ¬ n' = name → dsGet d' n' = dsGet d n') ∧
      d'.sections.Sublist d.sections := by
  have hex := sectionExB_eq_of_no_alias sphinxAliases d name ha
  cases hgy : dsGet d name with
  | some v =>
    cases v with
    | some sec =>
      have hb : sectionExB sphinxAliases d name = true := by rw [hex, hgy]
      rw [hb, popSectionM_direct sphinxAliases d name (some sec) hgy]
      refine ⟨dsRemove d name, by simp, ?_, ?_, dsRemove_sublist d name⟩
      · rw [sectionExB_eq_of_no_alias sphinxAliases _ name ha, dsGet_dsRemove_self]
      · intro n' hne
        exact dsGet_dsRemove_ne d name n' hne
    | none =>
      have hb : sectionExB sphinxAliases d name = false := by rw [hex, hgy]
      rw [hb]
      exact ⟨d, by simp, hb, fun _ _ => rfl, List.Sublist.refl _⟩
  | none =>
    have hb : sectionExB sphinxAliases d name = false := by rw [hex, hgy]
    rw [hb]
    exact ⟨d, by simp, hb, fun _ _ => rfl, List.Sublist.refl _⟩

/-- C5 (amended): when the body scan finds neither `return` nor `yield`,
no relocation to a `No Longer …` shadow happens.  The Napoleon styles
treat the unknown keyword exactly like `return` (so an existing
Returns section is updated in place, or a Yields section is migrated to
Returns); the Sphinx style pops (deletes outright) any existing
Returns and Yields sections, leaving the heap untouched and adding no
section. -/
theorem C5_missing_keyword_behavior (st : MState) (retName retType dfltDescription kw : Str)
    (h1 : kw ≠ "yield".data)
    (h2 : sphinxReturnKws.contains kw = false)
    (h3 : sphinxYieldKws.contains kw = false) :
    napUpdateReturnType st retName retType dfltDescription kw =
      napUpdateReturnType st retName retType dfltDescription "return".data ∧
    ∃ st', sphinxUpdateReturnType st retName retType dfltDescription kw = some st' ∧
      st'.heap = st.heap ∧
      st'.ds.sections.Sublist st.ds.sections ∧
      sectionExB sphinxAliases st'.ds "Returns".data = false ∧
      sectionExB sphinxAliases st'.ds "Yields".data = false := by
  have haR : alistGet sphinxAliases "Returns".data = none := by decide
  have haY : alistGet sphinxAliases "Yields".data = none := by decide
  constructor
  · have hsec : (if kw = "yield".data then "Yields".data else "Returns".data) =
        (if "return".data = "yield".data then "Yields".data else "Returns".data) := by
      rw [if_neg h1, if_neg (by decide)]
    unfold napUpdateReturnType
    rw [hsec]
  · have hcond : ¬ (sphinxReturnKws.contains kw = true ∨ sphinxYieldKws.contains kw = true) := by
      rintro (h | h) <;> simp_all
    unfold sphinxUpdateReturnType
    rw [if_neg hcond]
    obtain ⟨d1, hd1, hy1, hy2, hy3⟩ := sphinxPopStep st.ds "Yields".data haY
    rw [hd1]
    refine ⟨_, rfl, rfl, ?_, ?_, ?_⟩
    all_goals obtain ⟨d2, hd2, hr1, hr2, hr3⟩ := sphinxPopStep d1 "Returns".data haR
    all_goals rw [hd2]
    · exact hr3.trans hy3
    · exact hr1
    · have hpres := hr2 "Yields".data (by decide)
      rw [sectionExB_eq_of_no_alias sphinxAliases _ _ haY, hpres,
        ← sectionExB_eq_of_no_alias sphinxAliases _ _ haY]
      exact hy1

/-- C5 witness: at the concrete Returns-carrying state with an empty
keyword, the Napoleon update coincides with the `return`-keyword run. -/
theorem C5_missing_keyword_behavior_witness :
    napUpdateReturnType c5St [] "str".data "Description".data [] =
      napUpdateReturnType c5St [] "str".data "Description".data "return".data :=
  (C5_missing_keyword_behavior c5St [] "str".data "Description".data []
    (by decide) (by decide) (by decide)).1

/-- C2 (amended): one iteration of the fresh-parameter loop of
`_update_section` (shared by the Napoleon and Sphinx versions), for a
fresh parameter whose name exists in the old mapping **and whose old
entry's tag has not been claimed by an earlier fresh parameter**: the
old `Parameter` is popped and reused in `new` (same heap object, so its
description, names and `meta` are kept), its tag is recorded, and its
`types` is overwritten by the fresh types exactly when the fresh entry
is explicitly annotated.  (If the tag was already claimed, the entry is
dropped instead — see the counterexample.) -/
theorem C2_merge_step_type_overwrite (otherArgs : List Args) (s : NuSt) (name : Str)
    (fpid pidOld : Nat)
    (hcur : argsGet s.current (DKey.str name) = some pidOld)
    (htag : s.tagsSeen.contains (heapGet s.heap pidOld).tag = false)
    (hv : pidOld < s.heap.length) :
    ∃ s', nuStep otherArgs s (name, fpid) = some s' ∧
      s'.newArgs = argsPut s.newArgs (DKey.str name) pidOld ∧
      s'.current = argsRemove s.current (DKey.str name) ∧
      s'.tagsSeen = s.tagsSeen ++ [(heapGet s.heap pidOld).tag] ∧
      (heapGet s'.heap pidOld).description = (heapGet s.heap pidOld).description ∧
      (heapGet s'.heap pidOld).metaIndent = (heapGet s.heap pidOld).metaIndent ∧
      (heapGet s'.heap pidOld).names = (heapGet s.heap pidOld).names ∧
      (heapGet s'.heap pidOld).descrOnly = (heapGet s.heap pidOld).descrOnly ∧
      (heapGet s'.heap pidOld).types =
        (if (heapGet s.heap fpid).annotated then (heapGet s.heap fpid).types
         else (heapGet s.heap pidOld).types) ∧
      (∀ q, q ≠ pidOld → heapGet s'.heap q = heapGet s.heap q) := by
  simp only [nuStep]
  rw [hcur]
  simp only [htag, Bool.false_eq_true, if_false]
  cases han : (heapGet s.heap fpid).annotated with
  | true =>
    simp only [han, if_true]
    have hs := heapGet_heapSet_self s.heap pidOld
      { heapGet s.heap pidOld with types := (heapGet s.heap fpid).types } hv
    exact ⟨_, rfl, rfl, rfl, rfl, by rw [hs], by rw [hs], by rw [hs], by rw [hs],
      by rw [hs], fun q hq => heapGet_heapSet_ne s.heap pidOld q _ hq⟩
  | false =>
    simp only [han, Bool.false_eq_true, if_false]
    exact ⟨_, rfl, rfl, rfl, rfl, rfl, rfl, rfl, rfl, rfl, fun _ _ => rfl⟩

/-- C2 witness: concrete application of the step theorem. -/
theorem C2_merge_step_type_overwrite_witness :
    ∃ s', nuStep [] ⟨[c2Shared, freshPlainParam "a".data 0], [(DKey.str "a".data, 0), (DKey.str "b".data, 0)], [], []⟩ ("a".data, 1) = some s' ∧
      s'.newArgs = [(DKey.str "a".data, 0)] := by
  obtain ⟨s', h1, h2, _⟩ := C2_merge_step_type_overwrite []
    ⟨[c2Shared, freshPlainParam "a".data 0], [(DKey.str "a".data, 0), (DKey.str "b".data, 0)], [], []⟩
    "a".data 1 0 (by decide) (by decide) (by decide)
  exact ⟨s', h1, by rw [h2]; rfl⟩

theorem sectionExB_direct (aliases : List (Str × Str)) (d : DS) (name : Str) (v : Option Sec)
    (h : dsGet d name = some v) :
    sectionExB aliases d name = v.isSome := by
  unfold sectionExB
  rw [sectionFind_direct _ _ _ _ h]
  cases v <;> rfl

/-- C9 (amended): migrating between Returns and Yields moves the
structured data wholesale **provided the target section does not already
exist** (when both exist, no migration happens — see the
counterexample).  For the Napoleon styles in both directions, and for
Sphinx Returns→Yields: with an existing source section with non-empty
data, an absent target, and a non-empty fresh return type, the update
removes the source key and re-installs the very same argument mapping
under the target name, so exactly one of the two sections remains. -/
theorem C9_migration (st : MState) (retName retType dfltD : Str) (sec : Sec)
    (hargs : sec.args ≠ []) (ht : retType ≠ []) :
    (dsGet st.ds "Returns".data = some (some sec) →
     sectionExB napoleonAliases st.ds "Yields".data = false →
      ∃ st', napUpdateReturnType st retName retType dfltD "yield".data = some st' ∧
        dsGet st'.ds "Returns".data = none ∧
        dsGet st'.ds "Yields".data = some (some { sec with heading := "Yields".data })) ∧
    (dsGet st.ds "Yields".data = some (some sec) →
     sectionExB napoleonAliases st.ds "Returns".data = false →
      ∃ st', napUpdateReturnType st retName retType dfltD "return".data = some st' ∧
        dsGet st'.ds "Yields".data = none ∧
        dsGet st'.ds "Returns".data = some (some { sec with heading := "Returns".data })) ∧
    (dsGet st.ds "Returns".data = some (some sec) →
     sectionExB sphinxAliases st.ds "Yields".data = false →
      ∃ st' sec', sphinxUpdateReturnType st retName retType dfltD "yield".data = some st' ∧
        dsGet st'.ds "Returns".data = none ∧
        dsGet st'.ds "Yields".data = some (some sec') ∧
        sec'.args = sec.args) := by
  refine ⟨?_, ?_, ?_⟩
  · intro hR hYex
    have hRex : sectionExB napoleonAliases st.ds "Returns".data = true := by
      rw [sectionExB_direct napoleonAliases st.ds _ _ hR]; rfl
    have hIns : dsGet (insertSection (dsRemove st.ds "Returns".data) "Yields".data sec)
        "Yields".data = some (some { sec with heading := "Yields".data }) :=
      dsGet_dsPut_self _ _ _
    have hInsEx : sectionExB napoleonAliases
        (insertSection (dsRemove st.ds "Returns".data) "Yields".data sec) "Yields".data
          = true := by
      rw [sectionExB_direct _ _ _ _ hIns]; rfl
    have hFind : sectionFind napoleonAliases
        (insertSection (dsRemove st.ds "Returns".data) "Yields".data sec) "Yields".data
          = some ("Yields".data, some { sec with heading := "Yields".data }) :=
      sectionFind_direct _ _ _ _ hIns
    obtain ⟨kv, tl, hcons⟩ := List.exists_cons_of_ne_nil hargs
    simp only [napUpdateReturnType, hYex, hRex,
      popSectionM_direct napoleonAliases st.ds "Returns".data (some sec) hR,
      hInsEx, hFind, hcons, ht,
      Bool.false_eq_true, not_false_iff, if_true, eq_self_iff_true, if_false,
      not_true, false_and, and_true, true_and, List.cons_ne_nil, ne_eq,
      not_true_eq_false, decide_eq_true_eq]
    refine ⟨_, rfl, ?_, ?_⟩
    all_goals rw [show insertSection (dsRemove st.ds "Returns".data) "Yields".data sec =
          dsPut (dsRemove st.ds "Returns".data) "Yields".data
            (some { sec with heading := "Yields".data }) from rfl]
    · rw [dsGet_dsPut_ne _ _ _ _ (by decide), dsGet_dsRemove_self]
    · rw [dsGet_dsPut_self, hcons]
  · intro hY hRexF
    have hYexT : sectionExB napoleonAliases st.ds "Yields".data = true := by
      rw [sectionExB_direct napoleonAliases st.ds _ _ hY]; rfl
    have hIns : dsGet (insertSection (dsRemove st.ds "Yields".data) "Returns".data sec)
        "Returns".data = some (some { sec with heading := "Returns".data }) :=
      dsGet_dsPut_self _ _ _
    have hInsEx : sectionExB napoleonAliases
        (insertSection (dsRemove st.ds "Yields".data) "Returns".data sec) "Returns".data
          = true := by
      rw [sectionExB_direct _ _ _ _ hIns]; rfl
    have hFind : sectionFind napoleonAliases
        (insertSection (dsRemove st.ds "Yields".data) "Returns".data sec) "Returns".data
          = some ("Returns".data, some { sec with heading := "Returns".data }) :=
      sectionFind_direct _ _ _ _ hIns
    obtain ⟨kv, tl, hcons⟩ := List.exists_cons_of_ne_nil hargs
    have hkw : ("return".data = "yield".data) = False := by
      simp only [eq_iff_iff, iff_false]; decide
    simp only [napUpdateReturnType, hkw, hRexF, hYexT,
      popSectionM_direct napoleonAliases st.ds "Yields".data (some sec) hY,
      hIns, hInsEx, hFind, hcons, ht,
      Bool.false_eq_true, not_false_iff, if_true, eq_self_iff_true, if_false,
      not_true, false_and, and_true, true_and, List.cons_ne_nil, ne_eq,
      not_true_eq_false, decide_eq_true_eq]
    refine ⟨_, rfl, ?_, ?_⟩
    all_goals rw [show insertSection (dsRemove st.ds "Yields".data) "Returns".data sec =
          dsPut (dsRemove st.ds "Yields".data) "Returns".data
            (some { sec with heading := "Returns".data }) from rfl]
    · rw [dsGet_dsPut_ne _ _ _ _ (by decide), dsGet_dsRemove_self]
    · rw [dsGet_dsPut_self, hcons]
  · intro hR hYex
    have hRex : sectionExB sphinxAliases st.ds "Returns".data = true := by
      rw [sectionExB_direct sphinxAliases st.ds _ _ hR]; rfl
    obtain ⟨kv, tl, hcons⟩ := List.exists_cons_of_ne_nil hargs
    have hKwR : sphinxReturnKws.contains "yield".data = false := by decide
    have hKwY : sphinxYieldKws.contains "yield".data = true := by decide
    have hFin : sphinxFinalizeEmpty st.heap (dsRemove st.ds "Returns".data) "Yields".data
        = (st.heap ++ [⟨[sphinxDefaultTypeSnip], none, sphinxDefaultDescSnip, some 0,
             false, false, some []⟩],
           dsPut (dsRemove st.ds "Returns".data) "Yields".data
             (some ⟨"Yields".data, "Yields".data, true,
               [(DKey.int 0, st.heap.length)], [], []⟩)) := rfl
    have hGet : getSectionV sphinxAliases
        (dsPut (dsRemove st.ds "Returns".data) "Yields".data
          (some ⟨"Yields".data, "Yields".data, true,
            [(DKey.int 0, st.heap.length)], [], []⟩)) "Yields".data
        = some (some ⟨"Yields".data, "Yields".data, true,
            [(DKey.int 0, st.heap.length)], [], []⟩) := by
      unfold getSectionV
      rw [sectionFind_direct _ _ _ _ (dsGet_dsPut_self _ _ _)]
      rfl
    have hIns3 : dsGet (insertSection
        (dsPut (dsRemove st.ds "Returns".data) "Yields".data
          (some ⟨"Yields".data, "Yields".data, true,
            [(DKey.int 0, st.heap.length)], [], []⟩)) "Yields".data
        ⟨"Yields".data, "Yields".data, true, kv :: tl, [], []⟩) "Yields".data
        = some (some ⟨"Yields".data, "Yields".data, true, kv :: tl, [], []⟩) :=
      dsGet_dsPut_self _ _ _
    have hInsEx3 : sectionExB sphinxAliases (insertSection
        (dsPut (dsRemove st.ds "Returns".data) "Yields".data
          (some ⟨"Yields".data, "Yields".data, true,
            [(DKey.int 0, st.heap.length)], [], []⟩)) "Yields".data
        ⟨"Yields".data, "Yields".data, true, kv :: tl, [], []⟩) "Yields".data = true := by
      rw [sectionExB_direct _ _ _ _ hIns3]; rfl
    have hFind3 : sectionFind sphinxAliases (insertSection
        (dsPut (dsRemove st.ds "Returns".data) "Yields".data
          (some ⟨"Yields".data, "Yields".data, true,
            [(DKey.int 0, st.heap.length)], [], []⟩)) "Yields".data
        ⟨"Yields".data, "Yields".data, true, kv :: tl, [], []⟩) "Yields".data
        = some ("Yields".data,
            some ⟨"Yields".data, "Yields".data, true, kv :: tl, [], []⟩) :=
      sectionFind_direct _ _ _ _ hIns3
    simp only [sphinxUpdateReturnType, hKwR, hKwY, hYex, hRex,
      popSectionM_direct sphinxAliases st.ds "Returns".data (some sec) hR,
      hFin, hGet, hIns3, hInsEx3, hFind3, hcons, ht,
      Bool.false_eq_true, not_false_iff, if_true, eq_self_iff_true, if_false,
      not_true, false_and, and_true, true_and, false_or, or_true, true_or,
      List.cons_ne_nil, ne_eq, not_true_eq_false, decide_eq_true_eq]
    refine ⟨_, ⟨"Yields".data, "Yields".data, true, kv :: tl, [], []⟩, rfl, ?_, ?_, ?_⟩
    · rw [show insertSection
          (dsPut (dsRemove st.ds "Returns".data) "Yields".data
            (some ⟨"Yields".data, "Yields".data, true,
              [(DKey.int 0, st.heap.length)], [], []⟩)) "Yields".data
          ⟨"Yields".data, "Yields".data, true, kv :: tl, [], []⟩
        = dsPut (dsPut (dsRemove st.ds "Returns".data) "Yields".data
            (some ⟨"Yields".data, "Yields".data, true,
              [(DKey.int 0, st.heap.length)], [], []⟩)) "Yields".data
            (some ⟨"Yields".data, "Yields".data, true, kv :: tl, [], []⟩) from rfl,
        dsGet_dsPut_ne _ _ _ _ (by decide), dsGet_dsPut_ne _ _ _ _ (by decide),
        dsGet_dsRemove_self]
    · exact hIns3
    · rfl

/-- Witness for `C9_migration` at a concrete one-section state. -/
theorem C9_migration_witness :
    ∃ st', napUpdateReturnType c9MigSt [] "int".data "dd".data "yield".data = some st' ∧
      dsGet st'.ds "Returns".data = none ∧
      dsGet st'.ds "Yields".data
        = some (some { c9MigSec with heading := "Yields".data }) :=
  (C9_migration c9MigSt [] "int".data "dd".data c9MigSec (by decide) (by decide)).1
    (by decide) (by decide)

/-- Popping a section removes the canonical key: afterwards a direct
lookup of `name` yields nothing. -/
theorem popSectionM_rm (aliases : List (Str × Str)) (d : DS) (name : Str)
    (pr : Option Sec × DS) (h : popSectionM aliases d name = some pr) :
    dsGet pr.2 name = none := by
  cases hdg : dsGet d name with
  | some v =>
    simp only [popSectionM, sectionFind, hdg, Option.some.injEq] at h
    cases h
    exact dsGet_dsRemove_self d name
  | none =>
    simp only [popSectionM, sectionFind, hdg] at h
    split at h
    · rename_i kv heq
      simp only [Option.some.injEq] at h
      cases h
      split at heq
      · split at heq
        · rename_i v hv
          simp only [Option.some.injEq] at heq
          cases heq
          by_cases hr : name = resolveAlias aliases name
          · show dsGet (dsRemove d (resolveAlias aliases name)) name = none
            rw [← hr]
            exact dsGet_dsRemove_self _ _
          · show dsGet (dsRemove d (resolveAlias aliases name)) name = none
            rw [dsGet_dsRemove_ne _ _ _ hr]
            exact hdg
        · exact Option.noConfusion heq
      · exact Option.noConfusion heq
    · exact Option.noConfusion h

/-- C7: after a successful Napoleon or Sphinx section merge, the value
stored under the section's canonical name is never a present section
with an empty parameter mapping: an empty result is stored as `none`
(absent), so only sections with at least one entry are present. -/
theorem C7_empty_mapping_absent :
    (∀ st params secName secAlias delPref alphaOrder others st' sec,
       napoleonUpdateSection st params secName secAlias delPref alphaOrder others
         = some st' →
       dsGet st'.ds secName = some (some sec) → sec.args ≠ []) ∧
    (∀ st params secName alphaOrder st' sec,
       sphinxUpdateSection st params secName alphaOrder = some st' →
       dsGet st'.ds secName = some (some sec) → sec.args ≠ []) := by
  constructor
  · intro st params secName secAlias delPref alphaOrder others st' sec h hg
    simp only [napoleonUpdateSection] at h
    split at h
    · rename_i h0
      cases h
      exact absurd (sectionExB_direct napoleonAliases st.ds secName _ hg) h0.1
    · split at h
      · split at h
        · exact Option.noConfusion h
        · split at h
          · exact Option.noConfusion h
          · split at h
            · rename_i hc
              cases h
              simp only [dsGet_dsPut_self] at hg
              exact Option.noConfusion (Option.some.inj hg)
            · rename_i hc
              split at h
              · rename_i secC hsecC
                cases h
                simp only [dsGet_dsPut_self, Option.some.injEq] at hg
                rw [← hg]
                simpa using hc
              · exact Option.noConfusion h
      · exact Option.noConfusion h
  · intro st params secName alphaOrder st' sec h hg
    simp only [sphinxUpdateSection] at h
    split at h
    · split at h
      · split at h
        · rename_i pr hpop
          cases h
          exact Option.noConfusion ((popSectionM_rm _ _ _ _ hpop).symm.trans hg)
        · exact Option.noConfusion h
      · rename_i hex
        cases h
        exact absurd (sectionExB_direct sphinxAliases st.ds secName _ hg) hex
    · split at h
      · split at h
        · exact Option.noConfusion h
        · split at h
          · rename_i hc
            cases h
            simp only [dsGet_dsPut_self] at hg
            exact Option.noConfusion (Option.some.inj hg)
          · rename_i hc
            split at h
            · rename_i secC hsecC
              cases h
              simp only [dsGet_dsPut_self, Option.some.injEq] at hg
              rw [← hg]
              simpa using hc
            · exact Option.noConfusion h
      · exact Option.noConfusion h

/-- Witness for `C7_empty_mapping_absent` on a concrete Sphinx merge. -/
theorem C7_empty_mapping_absent_witness : c7WitSec.args ≠ [] :=
  C7_empty_mapping_absent.2 c7WSt [("x".data, 0)] "Parameters".data false c7WStOut
    c7WitSec (by decide) (by decide)

/-- The second component of the description-only carry fold keeps any
binding it has already acquired, as long as no later element reuses
the key. -/
theorem nuCarryFold_keep (heap : Heap) (l : Args) (c n : Args) (k : DKey) (v : Nat)
    (hn : argsGet n k = some v) (hl : ∀ kv ∈ l, kv.1 ≠ k) :
    argsGet (l.foldl (fun acc kv =>
      if (heapGet heap kv.2).descrOnly then
        (argsRemove acc.1 kv.1, argsPut acc.2 kv.1 kv.2)
      else acc) (c, n)).2 k = some v := by
  induction l generalizing c n with
  | nil => exact hn
  | cons x xs ih =>
    simp only [List.foldl_cons]
    by_cases hdcr : (heapGet heap x.2).descrOnly
    · rw [if_pos hdcr]
      refine ih _ _ ?_ (fun kv hm => hl kv (List.mem_cons_of_mem _ hm))
      rw [argsGet_argsPut_ne _ _ _ _ (hl x (List.mem_cons_self _ _)).symm]
      exact hn
    · rw [if_neg hdcr]
      exact ih _ _ hn (fun kv hm => hl kv (List.mem_cons_of_mem _ hm))

/-- The first component of the description-only carry fold never regains
a key that is already absent. -/
theorem nuCarryFold_absent (heap : Heap) (l : Args) (c n : Args) (k : DKey)
    (hc : argsGet c k = none) :
    argsGet (l.foldl (fun acc kv =>
      if (heapGet heap kv.2).descrOnly then
        (argsRemove acc.1 kv.1, argsPut acc.2 kv.1 kv.2)
      else acc) (c, n)).1 k = none := by
  induction l generalizing c n with
  | nil => exact hc
  | cons x xs ih =>
    simp only [List.foldl_cons]
    by_cases hdcr : (heapGet heap x.2).descrOnly
    · rw [if_pos hdcr]
      refine ih _ _ ?_
      by_cases hk : k = x.1
      · rw [hk]
        exact argsGet_argsRemove_self _ _
      · rw [argsGet_argsRemove_ne _ _ _ hk]
        exact hc
    · rw [if_neg hdcr]
      exact ih _ _ hc

/-- Description-only elements of the folded list end up bound (to their
original value) in the second component and absent from the first. -/
theorem nuCarryFold_mem (heap : Heap) (l : Args) (c n : Args) (kv : DKey × Nat)
    (hmem : kv ∈ l) (hd : (heapGet heap kv.2).descrOnly = true)
    (hnd : (l.map Prod.fst).Nodup) :
    argsGet (l.foldl (fun acc kv =>
      if (heapGet heap kv.2).descrOnly then
        (argsRemove acc.1 kv.1, argsPut acc.2 kv.1 kv.2)
      else acc) (c, n)).2 kv.1 = some kv.2 ∧
    argsGet (l.foldl (fun acc kv =>
      if (heapGet heap kv.2).descrOnly then
        (argsRemove acc.1 kv.1, argsPut acc.2 kv.1 kv.2)
      else acc) (c, n)).1 kv.1 = none := by
  induction l generalizing c n with
  | nil => cases hmem
  | cons x xs ih =>
    simp only [List.map_cons, List.nodup_cons] at hnd
    rcases List.mem_cons.mp hmem with heq | hmem'
    · subst heq
      simp only [List.foldl_cons, if_pos hd]
      have hl : ∀ kv' ∈ xs, kv'.1 ≠ kv.1 := by
        intro kv' hm' he
        exact hnd.1 (he ▸ List.mem_map_of_mem Prod.fst hm')
      constructor
      · exact nuCarryFold_keep heap xs _ _ _ _ (argsGet_argsPut_self _ _ _) hl
      · exact nuCarryFold_absent heap xs _ _ _ (argsGet_argsRemove_self _ _)
    · simp only [List.foldl_cons]
      by_cases hdcr : (heapGet heap x.2).descrOnly
      · rw [if_pos hdcr]
        exact ih _ _ hmem' hnd.2
      · rw [if_neg hdcr]
        exact ih _ _ hmem' hnd.2

/-- C8: every description-only entry of the old mapping that is still
present when the carry pass runs is carried forward unchanged into the
merged (new) mapping, and removed from the leftover mapping that feeds
the shadow section, provided the old mapping's keys are distinct. -/
theorem C8_descr_only_carried (heap : Heap) (current newArgs : Args) (kv : DKey × Nat)
    (hmem : kv ∈ current) (hd : (heapGet heap kv.2).descrOnly = true)
    (hnd : (current.map Prod.fst).Nodup) :
    argsGet (nuDescrCarry heap current newArgs).2 kv.1 = some kv.2 ∧
    argsGet (nuDescrCarry heap current newArgs).1 kv.1 = none := by
  unfold nuDescrCarry
  exact nuCarryFold_mem heap current current newArgs kv hmem hd hnd

/-- Witness for `C8_descr_only_carried` on a one-entry mapping. -/
theorem C8_descr_only_carried_witness :
    argsGet (nuDescrCarry c8WHeap c8WCur []).2 (DKey.int 0) = some 0 ∧
    argsGet (nuDescrCarry c8WHeap c8WCur []).1 (DKey.int 0) = none :=
  C8_descr_only_carried c8WHeap c8WCur [] (DKey.int 0, 0) (by decide) (by decide)
    (by decide)

/-- A list is a prefix of itself followed by anything. -/
theorem pyStartsWith_append (a b : Str) : pyStartsWith (a ++ b) a = true := by
  rw [pyStartsWith, List.isPrefixOf_iff_prefix]
  exact List.prefix_append a b

/-- Snippet-wrapped strings always start with the tabstop marker. -/
theorem snippetWrap_marker (t : Str) : pyStartsWith (snippetWrap t) markerStr = true := by
  rw [snippetWrap, List.append_assoc]
  exact pyStartsWith_append _ _

/-- One attribute-scan step keeps every stored type in marker-wrapped
form: any entry of the updated association list carries a type that
starts with the tabstop marker. -/
theorem attrStep_shape (inferCN : Str → Option Str) (dflt dfltDesc : Str)
    (attribs : List (Str × Param)) (nv : Str × Str)
    (hinv : ∀ k p, attrsGet attribs k = some p →
      ∃ w, p.types = some w ∧ pyStartsWith w markerStr = true) :
    ∀ k p, attrsGet (attrStep inferCN dflt dfltDesc attribs nv) k = some p →
      ∃ w, p.types = some w ∧ pyStartsWith w markerStr = true := by
  intro k p hget
  simp only [attrStep] at hget
  split at hget
  · exact hinv k p hget
  · split at hget
    · by_cases hk : k = nv.1
      · subst hk
        rw [attrsGet, findq_put_self _ _ _ (by assumption)] at hget
        simp only [Option.map_some'] at hget
        cases hget.symm
        refine ⟨_, rfl, ?_⟩
        split
        · assumption
        · exact snippetWrap_marker _
      · rw [attrsGet, findq_put_ne _ _ _ _ hk] at hget
        exact hinv k p hget
    · by_cases hk : k = nv.1
      · subst hk
        rw [attrsGet, findq_append_new _ _ _
          (by rename_i hno; exact Option.not_isSome_iff_eq_none.mp hno)] at hget
        simp only [Option.map_some'] at hget
        cases hget.symm
        refine ⟨_, rfl, ?_⟩
        split
        · assumption
        · exact snippetWrap_marker _
      · rw [attrsGet, findq_append_ne _ _ _ _ hk] at hget
        exact hinv k p hget

/-- Every type recorded by the attribute scan is marker-wrapped. -/
theorem processAttrs_shape (inferCN : Str → Option Str) (dflt dfltDesc : Str)
    (l : List (Str × Str)) :
    ∀ k p, attrsGet (processAttrs inferCN dflt dfltDesc l) k = some p →
      ∃ w, p.types = some w ∧ pyStartsWith w markerStr = true := by
  rw [processAttrs]
  have base : ∀ k p, attrsGet ([] : List (Str × Param)) k = some p →
      ∃ w, p.types = some w ∧ pyStartsWith w markerStr = true := by
    intro k p hget
    exact Option.noConfusion hget
  generalize ([] : List (Str × Param)) = a0 at base ⊢
  induction l generalizing a0 with
  | nil => exact base
  | cons x xs ih =>
    rw [List.foldl_cons]
    exact ih _ (attrStep_shape inferCN dflt dfltDesc a0 x base)

/-- One attribute-scan step never changes a stored type that already
differs from the default placeholder and its snippet-wrapped form,
provided that type is marker-wrapped. -/
theorem attrStep_stable (inferCN : Str → Option Str) (dflt dfltDesc : Str)
    (attribs : List (Str × Param)) (nv : Str × Str) (k : Str) (p : Param) (w : Str)
    (hget : attrsGet attribs k = some p) (htyp : p.types = some w)
    (hw1 : w ≠ dflt) (hw2 : w ≠ snippetWrap dflt)
    (hm : pyStartsWith w markerStr = true) :
    ∃ p', attrsGet (attrStep inferCN dflt dfltDesc attribs nv) k = some p' ∧
      p'.types = some w := by
  by_cases hk : k = nv.1
  · subst hk
    simp only [attrStep]
    split
    · exact ⟨p, hget, htyp⟩
    · rw [attrsGet] at hget
      cases hf : attribs.find? (fun q => q.1 == nv.1) with
      | none => rw [hf] at hget; exact Option.noConfusion hget
      | some pr =>
        rw [hf, Option.map_some'] at hget
        have hp2 := Option.some.inj hget
        simp only [hf, Option.map_some', hp2, htyp, Option.getD_some, getAttrType,
          ne_eq, hw1, hw2, not_false_eq_true, and_self, if_true, hm,
          Option.isSome_some]
        refine ⟨⟨[nv.1], some w, dfltDesc, p.tag, false, false, none⟩, ?_, rfl⟩
        rw [attrsGet, findq_put_self _ _ _ (by rw [hf]; rfl)]
        rfl
  · simp only [attrStep]
    split
    · exact ⟨p, hget, htyp⟩
    · split
      · refine ⟨p, ?_, htyp⟩
        rw [attrsGet, findq_put_ne _ _ _ _ hk]
        exact hget
      · refine ⟨p, ?_, htyp⟩
        rw [attrsGet, findq_append_ne _ _ _ _ hk]
        exact hget

/-- Folding further attribute assignments never changes a stored type
that already differs from the default placeholder and its wrapped form. -/
theorem processAttrs_fold_stable (inferCN : Str → Option Str) (dflt dfltDesc : Str)
    (l : List (Str × Str)) (a0 : List (Str × Param)) (k : Str) (p : Param) (w : Str)
    (hget : attrsGet a0 k = some p) (htyp : p.types = some w)
    (hw1 : w ≠ dflt) (hw2 : w ≠ snippetWrap dflt)
    (hm : pyStartsWith w markerStr = true) :
    ∃ p', attrsGet (l.foldl (attrStep inferCN dflt dfltDesc) a0) k = some p' ∧
      p'.types = some w := by
  induction l generalizing a0 p with
  | nil => exact ⟨p, hget, htyp⟩
  | cons x xs ih =>
    rw [List.foldl_cons]
    obtain ⟨p₁, hget₁, htyp₁⟩ :=
      attrStep_stable inferCN dflt dfltDesc a0 x k p w hget htyp hw1 hw2 hm
    exact ih _ _ hget₁ htyp₁

/-- C10: once the attribute scan has recorded, for some name, a type
that differs from the default placeholder and from its snippet-wrapped
form, processing any further assignments of that name (whatever their
right-hand sides) leaves the recorded type unchanged. -/
theorem C10_attr_type_stable (inferCN : Str → Option Str) (dflt dfltDesc : Str)
    (l₁ l₂ : List (Str × Str)) (k : Str) (p : Param) (w : Str)
    (hget : attrsGet (processAttrs inferCN dflt dfltDesc l₁) k = some p)
    (htyp : p.types = some w) (hw1 : w ≠ dflt) (hw2 : w ≠ snippetWrap dflt) :
    ∃ p', attrsGet (processAttrs inferCN dflt dfltDesc (l₁ ++ l₂)) k = some p' ∧
      p'.types = some w := by
  obtain ⟨w', hw', hm'⟩ := processAttrs_shape inferCN dflt dfltDesc l₁ k p hget
  have hww : w' = w := by
    rw [htyp] at hw'
    exact (Option.some.inj hw').symm
  subst hww
  rw [processAttrs] at hget ⊢
  rw [List.foldl_append]
  exact processAttrs_fold_stable inferCN dflt dfltDesc l₂ _ k p w' hget hw' hw1 hw2 hm'

/-- Witness for `C10_attr_type_stable`: a second assignment of `a` does
not change the type inferred from the first. -/
theorem C10_attr_type_stable_witness :
    ∃ p', attrsGet (processAttrs (fun s => if s = "1".data then some "int".data else none)
        "TYPE".data "dd".data ([("a".data, "1".data)] ++ [("a".data, "xyz".data)]))
        "a".data = some p' ∧ p'.types = some (snippetWrap "int".data) :=
  C10_attr_type_stable (fun s => if s = "1".data then some "int".data else none)
    "TYPE".data "dd".data [("a".data, "1".data)] [("a".data, "xyz".data)] "a".data
    ⟨["a".data], some (snippetWrap "int".data), "dd".data, some 0, false, false, none⟩
    (snippetWrap "int".data) (by decide) rfl (by decide) (by decide)

/-- A successful association-list lookup exhibits a member pair. -/
theorem argsGet_mem (l : Args) (k : DKey) (v : Nat) (h : argsGet l k = some v) :
    (k, v) ∈ l := by
  rw [argsGet] at h
  cases hf : l.find? (fun p => p.1 == k) with
  | none => rw [hf] at h; exact Option.noConfusion h
  | some pr =>
    rw [hf, Option.map_some'] at h
    have hm := List.mem_of_find?_eq_some hf
    have hk : pr.1 = k := by
      have := List.find?_some hf
      simpa using this
    have : pr = (k, v) := by
      cases pr
      simp only [Option.some.injEq] at h
      simp_all
    exact this ▸ hm

/-- Updating a different key keeps an existing pair in the list. -/
theorem mem_argsPut_ne (l : Args) (dk k : DKey) (p v : Nat)
    (hmem : (dk, p) ∈ l) (hne : dk ≠ k) : (dk, p) ∈ argsPut l k v := by
  rw [argsPut]
  split
  · refine List.mem_map.mpr ⟨(dk, p), hmem, ?_⟩
    rw [if_neg (by simpa using hne)]
  · exact List.mem_append_left _ hmem

/-- With duplicate-free keys, a key determines its value. -/
theorem keyNodup_uniq {α β : Type} (l : List (α × β)) (a : α) (b c : β)
    (hnd : (l.map Prod.fst).Nodup) (h1 : (a, b) ∈ l) (h2 : (a, c) ∈ l) : b = c := by
  induction l with
  | nil => cases h1
  | cons x xs ih =>
    simp only [List.map_cons, List.nodup_cons] at hnd
    rcases List.mem_cons.mp h1 with he1 | hm1 <;> rcases List.mem_cons.mp h2 with he2 | hm2
    · simpa using congrArg Prod.snd (he1.trans he2.symm)
    · exfalso
      apply hnd.1
      rw [show x.1 = a from by rw [← he1]]
      simpa using List.mem_map_of_mem Prod.fst hm2
    · exfalso
      apply hnd.1
      rw [show x.1 = a from by rw [← he2]]
      simpa using List.mem_map_of_mem Prod.fst hm1
    · exact ih hnd.2 hm1 hm2

/-- Insertion keeps only elements of the inserted list plus the new one. -/
theorem insSortedLower_mem (x y : Str × Nat) (l : List (Str × Nat))
    (h : y ∈ insSortedLower x l) : y = x ∨ y ∈ l := by
  induction l with
  | nil =>
    rw [show insSortedLower x [] = [x] from rfl] at h
    exact Or.inl (by simpa using h)
  | cons z zs ih =>
    rw [insSortedLower] at h
    split at h
    · rcases List.mem_cons.mp h with h' | h'
      · exact Or.inl h'
      · exact Or.inr h'
    · rcases List.mem_cons.mp h with h' | h'
      · exact Or.inr (List.mem_cons.mpr (Or.inl h'))
      · rcases ih h' with h'' | h''
        · exact Or.inl h''
        · exact Or.inr (List.mem_cons.mpr (Or.inr h''))

/-- The alphabetical reordering introduces no new elements. -/
theorem sortByLowerKey_subset (l : List (Str × Nat)) (y : Str × Nat)
    (h : y ∈ sortByLowerKey l) : y ∈ l := by
  rw [sortByLowerKey] at h
  have main : ∀ (l' : List (Str × Nat)) (acc : List (Str × Nat)),
      y ∈ l'.foldl (fun a x => insSortedLower x a) acc → y ∈ acc ∨ y ∈ l' := by
    intro l'
    induction l' with
    | nil => intro acc h'; exact Or.inl h'
    | cons z zs ih =>
      intro acc h'
      rw [List.foldl_cons] at h'
      rcases ih _ h' with h'' | h''
      · rcases insSortedLower_mem z y acc h'' with h3 | h3
        · exact Or.inr (h3 ▸ List.mem_cons_self _ _)
        · exact Or.inl h3
      · exact Or.inr (List.mem_cons_of_mem _ h'')
  rcases main l [] h with h' | h'
  · cases h'
  · exact h'

/-- Appending to the heap leaves existing cells unchanged. -/
theorem heapGet_append (h e : Heap) (q : Nat) (hq : q < h.length) :
    heapGet (h ++ e) q = heapGet h q := by
  unfold heapGet
  rw [List.getD_eq_getElem?_getD, List.getD_eq_getElem?_getD,
    List.getElem?_append_left hq]

/-- The freshly appended heap cell is read back. -/
theorem heapGet_append_self (h : Heap) (v : Param) :
    heapGet (h ++ [v]) h.length = v := by
  unfold heapGet
  rw [List.getD_eq_getElem?_getD, List.getElem?_append_right (Nat.le_refl _)]
  simp

/-- Setting a heap cell keeps the heap length. -/
theorem heapSet_length (h : Heap) (p : Nat) (v : Param) :
    (heapSet h p v).length = h.length := by
  unfold heapSet
  exact List.length_set h p v

/-- Overwriting a cell with a types-only update preserves the other
fields of every cell. -/
theorem heapGet_set_fields (h : Heap) (i : Nat) (v : Param) (q : Nat)
    (hn : v.names = (heapGet h i).names) (hd : v.description = (heapGet h i).description)
    (ho : v.descrOnly = (heapGet h i).descrOnly) (ht : v.tag = (heapGet h i).tag) :
    (heapGet (heapSet h i v) q).names = (heapGet h q).names ∧
    (heapGet (heapSet h i v) q).description = (heapGet h q).description ∧
    (heapGet (heapSet h i v) q).descrOnly = (heapGet h q).descrOnly ∧
    (heapGet (heapSet h i v) q).tag = (heapGet h q).tag := by
  by_cases hq : q = i
  · subst hq
    by_cases hi : q < h.length
    · rw [heapGet_heapSet_self _ _ _ hi]
      exact ⟨hn, hd, ho, ht⟩
    · rw [show heapSet h q v = h from by
        unfold heapSet
        exact List.set_eq_of_length_le (Nat.le_of_not_lt hi)]
      exact ⟨rfl, rfl, rfl, rfl⟩
  · rw [heapGet_heapSet_ne _ _ _ _ hq]
    exact ⟨rfl, rfl, rfl, rfl⟩

/-- Like `heapGet_set_fields`, but only for description, tag and
description-only flags, for cells strictly inside a given bound. -/
theorem heapGet_set_dtags (h : Heap) (i : Nat) (v : Param) (q : Nat)
    (hd : v.description = (heapGet h i).description)
    (ho : v.descrOnly = (heapGet h i).descrOnly) (ht : v.tag = (heapGet h i).tag) :
    (heapGet (heapSet h i v) q).description = (heapGet h q).description ∧
    (heapGet (heapSet h i v) q).descrOnly = (heapGet h q).descrOnly ∧
    (heapGet (heapSet h i v) q).tag = (heapGet h q).tag := by
  by_cases hq : q = i
  · subst hq
    by_cases hi : q < h.length
    · rw [heapGet_heapSet_self _ _ _ hi]
      exact ⟨hd, ho, ht⟩
    · rw [show heapSet h q v = h from by
        unfold heapSet
        exact List.set_eq_of_length_le (Nat.le_of_not_lt hi)]
      exact ⟨rfl, rfl, rfl⟩
  · rw [heapGet_heapSet_ne _ _ _ _ hq]
    exact ⟨rfl, rfl, rfl⟩

/-- A deleted-tags lookup over an extended list still fails when the
original lookup failed and the appended tag differs. -/
theorem tagGet_append_none (l : List (Option Nat × Nat)) (t0 t : Option Nat) (n : Nat)
    (h : tagGet l t = none) (hne : t0 ≠ t) : tagGet (l ++ [(t0, n)]) t = none := by
  rw [tagGet] at h ⊢
  cases hf : l.find? (fun p => p.1 == t) with
  | some pr => rw [hf] at h; exact Option.noConfusion h
  | none =>
    rw [List.find?_append, hf]
    simp only [Option.none_or]
    rw [show List.find? (fun p => p.1 == t) [(t0, n)] = none from by
      simp only [List.find?_cons, List.find?_nil,
        show ((t0, n).1 == t) = false from beq_eq_false_iff_ne.mpr hne]]
    rfl

/-- Splitting a successful option-valued fold over an append. -/
theorem optFoldlM_append {α β : Type} (l₁ l₂ : List α) (f : β → α → Option β)
    (i : β) (r : β) (h : (l₁ ++ l₂).foldlM f i = some r) :
    ∃ m, l₁.foldlM f i = some m ∧ l₂.foldlM f m = some r := by
  rw [List.foldlM_append] at h
  cases hm : l₁.foldlM f i with
  | none => rw [hm] at h; exact Option.noConfusion h
  | some m =>
    rw [hm] at h
    exact ⟨m, rfl, h⟩

/-- Peeling the first step off a successful option-valued fold. -/
theorem optFoldlM_cons {α β : Type} (x : α) (l : List α) (f : β → α → Option β)
    (i : β) (r : β) (h : (x :: l).foldlM f i = some r) :
    ∃ m, f i x = some m ∧ l.foldlM f m = some r := by
  rw [List.foldlM_cons] at h
  cases hm : f i x with
  | none => rw [hm] at h; exact Option.noConfusion h
  | some m =>
    rw [hm] at h
    exact ⟨m, rfl, h⟩

/-- Finalizing an empty Napoleon section never touches the heap. -/
theorem napFinalizeEmpty_heap (heap : Heap) (d : DS) (heading : Str) :
    (napFinalizeEmpty heap d heading).1 = heap := by
  simp only [napFinalizeEmpty, googleMkSec]
  split
  · rfl
  · rfl

/-- The key returned by a section search is the requested name or its
resolved alias. -/
theorem sectionFind_key (aliases : List (Str × Str)) (d : DS) (name : Str)
    (pr : Str × Option Sec) (h : sectionFind aliases d name = some pr) :
    pr.1 = name ∨ pr.1 = resolveAlias aliases name := by
  rw [sectionFind] at h
  split at h
  · cases h
    exact Or.inl rfl
  · split at h
    · split at h
      · cases h
        exact Or.inr rfl
      · exact Option.noConfusion h
    · exact Option.noConfusion h

/-- One fresh-parameter matching step: the old mapping only shrinks
(as a sublist), the heap keeps its length and every cell keeps its
names, description, description-only flag and tag, and lookups of keys
other than the processed name are unchanged. -/
theorem nuStep_inv (o : List Args) (s : NuSt) (nv : Str × Nat) (s' : NuSt)
    (h : nuStep o s nv = some s') :
    s'.current.Sublist s.current ∧
    s'.heap.length = s.heap.length ∧
    (∀ q, (heapGet s'.heap q).names = (heapGet s.heap q).names ∧
       (heapGet s'.heap q).description = (heapGet s.heap q).description ∧
       (heapGet s'.heap q).descrOnly = (heapGet s.heap q).descrOnly ∧
       (heapGet s'.heap q).tag = (heapGet s.heap q).tag) ∧
    (∀ dk, DKey.str nv.1 ≠ dk → argsGet s'.current dk = argsGet s.current dk) := by
  simp only [nuStep] at h
  split at h
  · rename_i pidOld hpid
    split at h
    · split at h
      · exact Option.noConfusion h
      · cases h
        refine ⟨List.filter_sublist _, rfl, fun q => ⟨rfl, rfl, rfl, rfl⟩, ?_⟩
        intro dk hdk
        exact argsGet_argsRemove_ne _ _ _ (fun he => hdk he.symm)
    · cases h
      refine ⟨List.filter_sublist _, ?_, ?_, ?_⟩
      · split
        · exact heapSet_length _ _ _
        · rfl
      · intro q
        split
        · exact heapGet_set_fields _ _ _ _ rfl rfl rfl rfl
        · exact ⟨rfl, rfl, rfl, rfl⟩
      · intro dk hdk
        exact argsGet_argsRemove_ne _ _ _ (fun he => hdk he.symm)
  · split at h
    · cases h
      exact ⟨List.Sublist.refl _, rfl, fun q => ⟨rfl, rfl, rfl, rfl⟩, fun dk _ => rfl⟩
    · cases h
      refine ⟨List.Sublist.refl _, ?_, ?_, fun dk _ => rfl⟩
      · split
        · exact heapSet_length _ _ _
        · rfl
      · intro q
        split
        · exact heapGet_set_fields _ _ _ _ rfl rfl rfl rfl
        · exact ⟨rfl, rfl, rfl, rfl⟩
    · exact Option.noConfusion h

/-- The fresh-parameter matching loop preserves the same state facts as
each of its steps, for every key not named by the fresh list. -/
theorem nuFold_inv (o : List Args) (l : List (Str × Nat)) (s0 s1 : NuSt)
    (h : l.foldlM (nuStep o) s0 = some s1) :
    s1.current.Sublist s0.current ∧
    s1.heap.length = s0.heap.length ∧
    (∀ q, (heapGet s1.heap q).names = (heapGet s0.heap q).names ∧
       (heapGet s1.heap q).description = (heapGet s0.heap q).description ∧
       (heapGet s1.heap q).descrOnly = (heapGet s0.heap q).descrOnly ∧
       (heapGet s1.heap q).tag = (heapGet s0.heap q).tag) ∧
    (∀ dk, (∀ nv ∈ l, DKey.str nv.1 ≠ dk) → argsGet s1.current dk = argsGet s0.current dk) := by
  induction l generalizing s0 with
  | nil =>
    cases h
    exact ⟨List.Sublist.refl _, rfl, fun q => ⟨rfl, rfl, rfl, rfl⟩, fun dk _ => rfl⟩
  | cons x xs ih =>
    obtain ⟨m, hstep, hrest⟩ := optFoldlM_cons x xs _ s0 s1 h
    obtain ⟨hs₁, hl₁, hf₁, hg₁⟩ := nuStep_inv o s0 x m hstep
    obtain ⟨hs₂, hl₂, hf₂, hg₂⟩ := ih m hrest
    refine ⟨hs₂.trans hs₁, hl₂.trans hl₁, ?_, ?_⟩
    · intro q
      obtain ⟨a1, b1, c1, d1⟩ := hf₁ q
      obtain ⟨a2, b2, c2, d2⟩ := hf₂ q
      exact ⟨a2.trans a1, b2.trans b1, c2.trans c1, d2.trans d1⟩
    · intro dk hdk
      rw [hg₂ dk (fun nv hm => hdk nv (List.mem_cons_of_mem _ hm)),
        hg₁ dk (hdk x (List.mem_cons_self _ _))]

/-- The leftover mapping produced by the description-only carry pass is
a sublist of the original mapping. -/
theorem nuCarryFold_sub (heap : Heap) (l : Args) (c n : Args) :
    ((l.foldl (fun acc kv =>
      if (heapGet heap kv.2).descrOnly then
        (argsRemove acc.1 kv.1, argsPut acc.2 kv.1 kv.2)
      else acc) (c, n)).1).Sublist c := by
  induction l generalizing c n with
  | nil => exact List.Sublist.refl _
  | cons x xs ih =>
    simp only [List.foldl_cons]
    by_cases hdcr : (heapGet heap x.2).descrOnly
    · rw [if_pos hdcr]
      exact (ih _ _).trans (List.filter_sublist _)
    · rw [if_neg hdcr]
      exact ih _ _

/-- The carry pass keeps lookups of keys whose entries are not
description-only. -/
theorem nuCarryFold_get (heap : Heap) (l : Args) (c n : Args) (dk : DKey) (pid : Nat)
    (hget : argsGet c dk = some pid)
    (hnd : ∀ kv ∈ l, kv.1 = dk → (heapGet heap kv.2).descrOnly = false) :
    argsGet ((l.foldl (fun acc kv =>
      if (heapGet heap kv.2).descrOnly then
        (argsRemove acc.1 kv.1, argsPut acc.2 kv.1 kv.2)
      else acc) (c, n)).1) dk = some pid := by
  induction l generalizing c n with
  | nil => exact hget
  | cons x xs ih =>
    simp only [List.foldl_cons]
    by_cases hdcr : (heapGet heap x.2).descrOnly
    · rw [if_pos hdcr]
      have hxk : ¬ dk = x.1 := by
        intro he
        rw [hnd x (List.mem_cons_self _ _) he.symm] at hdcr
        exact Bool.noConfusion hdcr
      refine ih _ _ ?_ (fun kv hm hk => hnd kv (List.mem_cons_of_mem _ hm) hk)
      rw [argsGet_argsRemove_ne _ _ _ hxk]
      exact hget
    · rw [if_neg hdcr]
      exact ih _ _ hget (fun kv hm hk => hnd kv (List.mem_cons_of_mem _ hm) hk)

/-- One deleted-parameters step: the heap only grows, cells below the
processed index bound keep description, description-only flag and tag,
and a tag absent from the deleted-tags table stays absent unless it is
the processed entry's tag. -/
theorem nuDelStep_base (s : DelSt) (kv : DKey × Nat) (s' : DelSt)
    (h : nuDelStep s kv = some s') :
    s.heap.length ≤ s'.heap.length ∧
    (∀ q, (heapGet s'.heap q).description = (heapGet s.heap q).description ∧
      (heapGet s'.heap q).descrOnly = (heapGet s.heap q).descrOnly ∧
      (heapGet s'.heap q).tag = (heapGet s.heap q).tag ∨ ¬ q < s.heap.length) ∧
    (∀ t, tagGet s.delTags t = none → (heapGet s.heap kv.2).tag ≠ t →
      tagGet s'.delTags t = none) := by
  simp only [nuDelStep] at h
  split at h
  · exact Option.noConfusion h
  · rename_i ks hks
    split at h
    · exact Option.noConfusion h
    · rename_i names1 hrm
      split at h
      · rename_i pidD hpD
        cases h
        refine ⟨Nat.le_of_eq ?_, ?_, fun t ht _ => ht⟩
        · rw [heapSet_length, heapSet_length]
        · intro q
          by_cases hq : q < s.heap.length
          · left
            obtain ⟨a1, b1, c1⟩ := heapGet_set_dtags s.heap kv.2
              { heapGet s.heap kv.2 with names := names1 } q rfl rfl rfl
            obtain ⟨a2, b2, c2⟩ := heapGet_set_dtags
              (heapSet s.heap kv.2 { heapGet s.heap kv.2 with names := names1 }) pidD
              { heapGet (heapSet s.heap kv.2 { heapGet s.heap kv.2 with names := names1 })
                  pidD with
                names := (heapGet (heapSet s.heap kv.2
                  { heapGet s.heap kv.2 with names := names1 }) pidD).names ++ [ks] } q
              rfl rfl rfl
            exact ⟨a2.trans a1, b2.trans b1, c2.trans c1⟩
          · right
            exact hq
      · cases h
        have hl1 : (heapSet s.heap kv.2
            { heapGet s.heap kv.2 with names := names1 }).length = s.heap.length :=
          heapSet_length _ _ _
        refine ⟨?_, ?_, ?_⟩
        · rw [List.length_append, hl1]
          exact Nat.le_succ _
        · intro q
          by_cases hq : q < s.heap.length
          · left
            obtain ⟨a1, b1, c1⟩ := heapGet_set_dtags s.heap kv.2
              { heapGet s.heap kv.2 with names := names1 } q rfl rfl rfl
            rw [heapGet_append _ _ _ (by rw [hl1]; exact hq)]
            exact ⟨a1, b1, c1⟩
          · right
            exact hq
        · intro t ht htag
          exact tagGet_append_none _ _ _ _ ht htag

/-- One deleted-parameters step keeps a tracked shadow entry: its pair
stays in the shadow mapping and its cell keeps its description and
keeps containing the tracked name. -/
theorem nuDelStep_keep (s : DelSt) (kv : DKey × Nat) (s' : DelSt)
    (h : nuDelStep s kv = some s') (lenI pidD : Nat) (dk : DKey) (D k : Str)
    (hkv2 : kv.2 < lenI) (hkv1 : kv.1 ≠ dk) (hlenp : lenI ≤ pidD)
    (hQ1 : pidD < s.heap.length) (hQ2 : (dk, pidD) ∈ s.delArgs)
    (hQ3 : (heapGet s.heap pidD).description = D)
    (hQ4 : k ∈ (heapGet s.heap pidD).names) :
    pidD < s'.heap.length ∧ (dk, pidD) ∈ s'.delArgs ∧
    (heapGet s'.heap pidD).description = D ∧ k ∈ (heapGet s'.heap pidD).names := by
  have hne2 : kv.2 ≠ pidD := Nat.ne_of_lt (Nat.lt_of_lt_of_le hkv2 hlenp)
  simp only [nuDelStep] at h
  split at h
  · exact Option.noConfusion h
  · rename_i ks hks
    split at h
    · exact Option.noConfusion h
    · rename_i names1 hrm
      have hp1 : heapGet (heapSet s.heap kv.2
          { heapGet s.heap kv.2 with names := names1 }) pidD = heapGet s.heap pidD :=
        heapGet_heapSet_ne _ _ _ _ (fun he => hne2 he.symm)
      split at h
      · rename_i pidD' hpD
        cases h
        rw [heapSet_length, heapSet_length]
        by_cases hpp : pidD' = pidD
        · subst hpp
          rw [heapGet_heapSet_self _ _ _ (by rw [heapSet_length]; exact hQ1)]
          refine ⟨hQ1, hQ2, ?_, ?_⟩
          · show (heapGet (heapSet s.heap kv.2
              { heapGet s.heap kv.2 with names := names1 }) pidD').description = D
            rw [hp1]
            exact hQ3
          · show k ∈ (heapGet (heapSet s.heap kv.2
              { heapGet s.heap kv.2 with names := names1 }) pidD').names ++ [ks]
            refine List.mem_append_left _ ?_
            rw [hp1]
            exact hQ4
        · rw [heapGet_heapSet_ne _ _ _ _ (fun he => hpp he.symm), hp1]
          exact ⟨hQ1, hQ2, hQ3, hQ4⟩
      · cases h
        have hl1 : (heapSet s.heap kv.2
            { heapGet s.heap kv.2 with names := names1 }).length = s.heap.length :=
          heapSet_length _ _ _
        refine ⟨?_, mem_argsPut_ne _ _ _ _ _ hQ2 (fun he => hkv1 he.symm), ?_, ?_⟩
        · rw [List.length_append, hl1]
          exact Nat.lt_succ_of_lt hQ1
        · rw [heapGet_append _ _ _ (by rw [hl1]; exact hQ1), hp1]
          exact hQ3
        · rw [heapGet_append _ _ _ (by rw [hl1]; exact hQ1), hp1]
          exact hQ4

/-- The deleted-parameters loop: the heap only grows, cells below the
initial bound keep description, description-only flag and tag, and a tag
absent initially stays absent when no processed entry carries it. -/
theorem nuDelFold_base (l : Args) (s0 s1 : DelSt) (lenI : Nat)
    (h : l.foldlM nuDelStep s0 = some s1) (hlen0 : lenI ≤ s0.heap.length)
    (hl : ∀ kv ∈ l, kv.2 < lenI) :
    s0.heap.length ≤ s1.heap.length ∧
    (∀ q, q < lenI →
      (heapGet s1.heap q).description = (heapGet s0.heap q).description ∧
      (heapGet s1.heap q).descrOnly = (heapGet s0.heap q).descrOnly ∧
      (heapGet s1.heap q).tag = (heapGet s0.heap q).tag) ∧
    (∀ t, tagGet s0.delTags t = none →
      (∀ kv ∈ l, (heapGet s0.heap kv.2).tag ≠ t) → tagGet s1.delTags t = none) := by
  induction l generalizing s0 with
  | nil =>
    cases h
    exact ⟨Nat.le_refl _, fun q _ => ⟨rfl, rfl, rfl⟩, fun t ht _ => ht⟩
  | cons x xs ih =>
    obtain ⟨m, hstep, hrest⟩ := optFoldlM_cons x xs _ s0 s1 h
    obtain ⟨hle₁, hf₁, ht₁⟩ := nuDelStep_base s0 x m hstep
    obtain ⟨hle₂, hf₂, ht₂⟩ := ih m hrest (hlen0.trans hle₁)
      (fun kv hm => hl kv (List.mem_cons_of_mem _ hm))
    have hfix : ∀ q, q < lenI →
        (heapGet m.heap q).description = (heapGet s0.heap q).description ∧
        (heapGet m.heap q).descrOnly = (heapGet s0.heap q).descrOnly ∧
        (heapGet m.heap q).tag = (heapGet s0.heap q).tag := by
      intro q hq
      rcases hf₁ q with hp | hp
      · exact hp
      · exact absurd (Nat.lt_of_lt_of_le hq hlen0) hp
    refine ⟨hle₁.trans hle₂, ?_, ?_⟩
    · intro q hq
      obtain ⟨a1, b1, c1⟩ := hfix q hq
      obtain ⟨a2, b2, c2⟩ := hf₂ q hq
      exact ⟨a2.trans a1, b2.trans b1, c2.trans c1⟩
    · intro t ht hts
      refine ht₂ t (ht₁ t ht (hts x (List.mem_cons_self _ _))) ?_
      intro kv hm
      rw [(hfix kv.2 (hl kv (List.mem_cons_of_mem _ hm))).2.2]
      exact hts kv (List.mem_cons_of_mem _ hm)

/-- The deleted-parameters loop keeps a tracked shadow entry intact. -/
theorem nuDelFold_keep (l : Args) (s0 s1 : DelSt) (lenI pidD : Nat) (dk : DKey)
    (D k : Str) (h : l.foldlM nuDelStep s0 = some s1)
    (hl : ∀ kv ∈ l, kv.2 < lenI ∧ kv.1 ≠ dk) (hlenp : lenI ≤ pidD)
    (hQ1 : pidD < s0.heap.length) (hQ2 : (dk, pidD) ∈ s0.delArgs)
    (hQ3 : (heapGet s0.heap pidD).description = D)
    (hQ4 : k ∈ (heapGet s0.heap pidD).names) :
    pidD < s1.heap.length ∧ (dk, pidD) ∈ s1.delArgs ∧
    (heapGet s1.heap pidD).description = D ∧ k ∈ (heapGet s1.heap pidD).names := by
  induction l generalizing s0 with
  | nil =>
    cases h
    exact ⟨hQ1, hQ2, hQ3, hQ4⟩
  | cons x xs ih =>
    obtain ⟨m, hstep, hrest⟩ := optFoldlM_cons x xs _ s0 s1 h
    obtain ⟨hQ1', hQ2', hQ3', hQ4'⟩ := nuDelStep_keep s0 x m hstep lenI pidD dk D k
      (hl x (List.mem_cons_self _ _)).1 (hl x (List.mem_cons_self _ _)).2 hlenp
      hQ1 hQ2 hQ3 hQ4
    exact ih m hrest (fun kv hm => hl kv (List.mem_cons_of_mem _ hm)) hQ1' hQ2' hQ3' hQ4'

/-- Processing a deleted entry whose tag is not yet in the deleted-tags
table creates a fresh shadow cell carrying the entry's name and its
original description, and binds the entry's key to it. -/
theorem nuDelStep_create (m : DelSt) (k : Str) (pid : Nat) (m' : DelSt)
    (h : nuDelStep m (DKey.str k, pid) = some m')
    (htag : tagGet m.delTags (heapGet m.heap pid).tag = none) :
    m.heap.length < m'.heap.length ∧
    (DKey.str k, m.heap.length) ∈ m'.delArgs ∧
    (heapGet m'.heap m.heap.length).description = (heapGet m.heap pid).description ∧
    k ∈ (heapGet m'.heap m.heap.length).names := by
  simp only [nuDelStep, htag] at h
  split at h
  · exact Option.noConfusion h
  · rename_i names1 hrm
    cases h
    have hl1 : (heapSet m.heap pid
        { heapGet m.heap pid with names := names1 }).length = m.heap.length :=
      heapSet_length _ _ _
    refine ⟨?_, ?_, ?_, ?_⟩
    · rw [List.length_append, hl1]
      exact Nat.lt_succ_self _
    · rw [← hl1]
      exact argsGet_mem _ _ _ (argsGet_argsPut_self _ _ _)
    · rw [← hl1, heapGet_append_self]
    · rw [← hl1, heapGet_append_self]
      exact List.mem_cons_self _ _

/-- Running the deleted-parameters loop over a mapping that contains a
non-duplicate, uniquely-tagged entry `(k, pid)` produces a shadow cell
that carries `k` and the original description of `pid`. -/
theorem delLoopOutcome (heapL : Heap) (A0 current3 : Args) (dst : DelSt)
    (k : Str) (pid : Nat) (D : Str) (lenI : Nat)
    (hfoldD : current3.foldlM nuDelStep ⟨heapL, A0, []⟩ = some dst)
    (hlen0 : lenI ≤ heapL.length)
    (hmem3 : (DKey.str k, pid) ∈ current3)
    (hpids : ∀ kv ∈ current3, kv.2 < lenI)
    (hkeys : (current3.map Prod.fst).Nodup)
    (htags : ∀ kv ∈ current3,
      (heapGet heapL kv.2).tag = (heapGet heapL pid).tag → kv.2 = pid)
    (hkeypid : ∀ kv ∈ current3, kv.2 = pid → kv.1 = DKey.str k)
    (hD : (heapGet heapL pid).description = D) :
    ∃ pidD, (DKey.str k, pidD) ∈ dst.delArgs ∧ pidD < dst.heap.length ∧
      (heapGet dst.heap pidD).description = D ∧ k ∈ (heapGet dst.heap pidD).names := by
  obtain ⟨l₁, l₂, hsplit⟩ := List.append_of_mem hmem3
  subst hsplit
  have hkeys' : ¬ DKey.str k ∈ l₁.map Prod.fst ∧ ¬ DKey.str k ∈ l₂.map Prod.fst := by
    rw [List.map_append, List.map_cons, List.nodup_append] at hkeys
    obtain ⟨hn1, hn2, hdisj⟩ := hkeys
    refine ⟨fun hm => hdisj hm (List.mem_cons_self _ _), ?_⟩
    rw [List.nodup_cons] at hn2
    exact hn2.1
  obtain ⟨m, hfold1, hrest⟩ := optFoldlM_append l₁ _ _ _ _ hfoldD
  obtain ⟨m', hstep, hfold2⟩ := optFoldlM_cons _ l₂ _ _ _ hrest
  have hmem1 : ∀ kv ∈ l₁, kv ∈ l₁ ++ (DKey.str k, pid) :: l₂ :=
    fun kv hm => List.mem_append_left _ hm
  have hmem2 : ∀ kv ∈ l₂, kv ∈ l₁ ++ (DKey.str k, pid) :: l₂ :=
    fun kv hm => List.mem_append_right _ (List.mem_cons_of_mem _ hm)
  have hpid : pid < lenI :=
    hpids _ (List.mem_append_right _ (List.mem_cons_self _ _))
  obtain ⟨hgrow1, hfix1, htagn1⟩ := nuDelFold_base l₁ _ m lenI hfold1 hlen0
    (fun kv hm => hpids kv (hmem1 kv hm))
  have htagm : tagGet m.delTags (heapGet m.heap pid).tag = none := by
    rw [(hfix1 pid hpid).2.2]
    refine htagn1 _ rfl ?_
    intro kv hm he
    have h2 := htags kv (hmem1 kv hm) he
    have h3 := hkeypid kv (hmem1 kv hm) h2
    exact hkeys'.1 (h3 ▸ List.mem_map_of_mem Prod.fst hm)
  obtain ⟨hlt', hmem', hD', hk'⟩ := nuDelStep_create m k pid m' hstep htagm
  have hlenp : lenI ≤ m.heap.length := hlen0.trans hgrow1
  have hl2 : ∀ kv ∈ l₂, kv.2 < lenI ∧ kv.1 ≠ DKey.str k := by
    intro kv hm
    exact ⟨hpids kv (hmem2 kv hm),
      fun he => hkeys'.2 (he ▸ List.mem_map_of_mem Prod.fst hm)⟩
  have hDm : (heapGet m'.heap m.heap.length).description = D := by
    rw [hD', (hfix1 pid hpid).1]
    exact hD
  obtain ⟨a, b, c, d⟩ := nuDelFold_keep l₂ m' dst lenI m.heap.length (DKey.str k) D k
    hfold2 hl2 hlenp hlt' hmem' hDm hk'
  exact ⟨m.heap.length, b, a, c, d⟩

/-- C1 (amended, Napoleon-style merges) -/
theorem C1_napoleon_shadow_preserved (st : MState) (params : List (Str × Nat))
    (secName : Str) (secAlias : Option Str) (delPref : Str) (alphaOrder : Bool)
    (others : List Str) (st' : MState) (sec : Sec) (k : Str) (pid : Nat)
    (h1 : dsGet st.ds secName = some (some sec))
    (h3 : argsGet sec.args (DKey.str k) = some pid)
    (h4 : (heapGet st.heap pid).descrOnly = false)
    (h5 : ∀ nv ∈ params, nv.1 ≠ k)
    (h6 : k ≠ [])
    (h7 : (sec.args.map Prod.fst).Nodup)
    (h8 : ∀ kv ∈ sec.args, kv.2 < st.heap.length)
    (h9 : ∀ kv ∈ sec.args, kv.2 = pid → kv.1 = DKey.str k)
    (h10 : ∀ kv ∈ sec.args,
      (heapGet st.heap kv.2).tag = (heapGet st.heap pid).tag → kv.2 = pid)
    (h11 : delPref ++ secName ≠ secName)
    (h12 : resolveAlias napoleonAliases (delPref ++ secName) ≠ secName)
    (hsucc : napoleonUpdateSection st params secName secAlias delPref alphaOrder others
      = some st') :
    ∃ dKey dSec pidD,
      dsGet st'.ds dKey = some (some dSec) ∧
      (dKey = delPref ++ secName ∨
        dKey = resolveAlias napoleonAliases (delPref ++ secName)) ∧
      (DKey.str k, pidD) ∈ dSec.args ∧
      k ∈ (heapGet st'.heap pidD).names ∧
      (heapGet st'.heap pidD).description = (heapGet st.heap pid).description := by
  have hEx : sectionExB napoleonAliases st.ds secName = true := by
    rw [sectionExB_direct _ _ _ _ h1]; rfl
  have hGV : getSectionV napoleonAliases st.ds secName = some (some sec) := by
    rw [getSectionV, sectionFind_direct _ _ _ _ h1]; rfl
  simp only [napoleonUpdateSection, hEx, hGV, not_true, false_and, if_false,
    not_true_eq_false, Bool.true_eq_false, and_false] at hsucc
  split at hsucc
  · exact Option.noConfusion hsucc
  · rename_i lst heqfold
    obtain ⟨hsub, hlenA, hfieldsA, hgetA⟩ := nuFold_inv _ _ _ _ heqfold
    have hparams1 : ∀ nv ∈ (if alphaOrder = true then sortByLowerKey params
        else params), DKey.str nv.1 ≠ DKey.str k := by
      intro nv hm he
      have hmp : nv ∈ params := by
        split at hm
        · exact sortByLowerKey_subset _ _ hm
        · exact hm
      exact h5 nv hmp (by injection he)
    have hgetc : argsGet lst.current (DKey.str k) = some pid := by
      rw [hgetA (DKey.str k) hparams1]
      exact h3
    have hdonly : ∀ kv ∈ lst.current, kv.1 = DKey.str k →
        (heapGet lst.heap kv.2).descrOnly = false := by
      intro kv hm hk
      have hmem : kv ∈ sec.args := hsub.subset hm
      have hkv' : kv = (DKey.str k, kv.2) := Prod.ext hk rfl
      rw [hkv'] at hmem
      have hpp : kv.2 = pid :=
        keyNodup_uniq sec.args (DKey.str k) kv.2 pid h7 hmem (argsGet_mem _ _ _ h3)
      rw [(hfieldsA kv.2).2.2.1, hpp]
      exact h4
    have hcar : argsGet (nuDescrCarry lst.heap lst.current lst.newArgs).1
        (DKey.str k) = some pid := by
      rw [nuDescrCarry]
      exact nuCarryFold_get lst.heap lst.current lst.current lst.newArgs _ _ hgetc hdonly
    have hstrne : ¬ DKey.str k = DKey.str [] := by
      intro he
      exact h6 (by injection he)
    have hc3 : argsGet (argsRemove (nuDescrCarry lst.heap lst.current lst.newArgs).1
        (DKey.str [])) (DKey.str k) = some pid := by
      rw [argsGet_argsRemove_ne _ _ _ hstrne]
      exact hcar
    have hmem3 : (DKey.str k, pid) ∈ argsRemove
        (nuDescrCarry lst.heap lst.current lst.newArgs).1 (DKey.str []) :=
      argsGet_mem _ _ _ hc3
    have hsub3 : (argsRemove (nuDescrCarry lst.heap lst.current lst.newArgs).1
        (DKey.str [])).Sublist sec.args := by
      refine (List.filter_sublist _).trans (List.Sublist.trans ?_ hsub)
      rw [nuDescrCarry]
      exact nuCarryFold_sub lst.heap lst.current lst.current lst.newArgs
    have hkeys3 : ((argsRemove (nuDescrCarry lst.heap lst.current lst.newArgs).1
        (DKey.str [])).map Prod.fst).Nodup :=
      h7.sublist (hsub3.map Prod.fst)
    have hpids3 : ∀ kv ∈ argsRemove (nuDescrCarry lst.heap lst.current lst.newArgs).1
        (DKey.str []), kv.2 < st.heap.length :=
      fun kv hm => h8 kv (hsub3.subset hm)
    have htags3 : ∀ kv ∈ argsRemove (nuDescrCarry lst.heap lst.current lst.newArgs).1
        (DKey.str []), (heapGet lst.heap kv.2).tag = (heapGet lst.heap pid).tag →
        kv.2 = pid := by
      intro kv hm ht
      refine h10 kv (hsub3.subset hm) ?_
      rw [← (hfieldsA kv.2).2.2.2, ← (hfieldsA pid).2.2.2]
      exact ht
    have hkeypid3 : ∀ kv ∈ argsRemove (nuDescrCarry lst.heap lst.current lst.newArgs).1
        (DKey.str []), kv.2 = pid → kv.1 = DKey.str k :=
      fun kv hm hp => h9 kv (hsub3.subset hm) hp
    split at hsucc
    · exact Option.noConfusion hsucc
    · rename_i hdF heqA
      split at heqA
      · rename_i hc30
        rw [hc30, show argsGet [] (DKey.str k) = none from rfl] at hc3
        exact Option.noConfusion hc3
      · split at heqA
        · rename_i dKey dSec heqfind
          split at heqA
          · exact Option.noConfusion heqA
          · rename_i dst heqdel
            cases heqA
            have hheapL : (if ¬sectionExB napoleonAliases st.ds
                  (resolveAlias napoleonAliases (delPref ++ secName)) = true then
                napFinalizeEmpty lst.heap st.ds (delPref ++ secName)
              else (lst.heap, st.ds)).1 = lst.heap := by
              split
              · exact napFinalizeEmpty_heap _ _ _
              · rfl
            rw [hheapL] at heqdel
            obtain ⟨pidD, hmemD, hltD, hDD, hkD⟩ := delLoopOutcome lst.heap dSec.args
              _ dst k pid (heapGet st.heap pid).description st.heap.length heqdel
              (Nat.le_of_eq hlenA.symm) hmem3 hpids3 hkeys3 htags3 hkeypid3
              ((hfieldsA pid).2.1)
            have hdor := sectionFind_key _ _ _ _ heqfind
            have hdne : ¬ dKey = secName := by
              rcases hdor with hk' | hk'
              · rw [show (dKey, some dSec).1 = dKey from rfl] at hk'
                rw [hk']
                exact h11
              · rw [show (dKey, some dSec).1 = dKey from rfl] at hk'
                rw [hk']
                exact h12
            split at hsucc
            · cases hsucc
              refine ⟨dKey, ⟨dSec.heading, dSec.aliasName, dSec.structured,
                dst.delArgs, dSec.rawText, dSec.sectionIndent⟩, pidD,
                ?_, ?_, hmemD, hkD, hDD⟩
              · show dsGet (dsPut (dsPut _ dKey _) secName none) dKey = _
                rw [dsGet_dsPut_ne _ _ _ _ hdne, dsGet_dsPut_self]
              · exact hdor
            · split at hsucc
              · rename_i secC heqC
                cases hsucc
                refine ⟨dKey, ⟨dSec.heading, dSec.aliasName, dSec.structured,
                  dst.delArgs, dSec.rawText, dSec.sectionIndent⟩, pidD,
                  ?_, ?_, hmemD, hkD, hDD⟩
                · show dsGet (dsPut (dsPut _ dKey _) secName _) dKey = _
                  rw [dsGet_dsPut_ne _ _ _ _ hdne, dsGet_dsPut_self]
                · exact hdor
              · exact Option.noConfusion hsucc
        · exact Option.noConfusion heqA

/-- Witness for `C1_napoleon_shadow_preserved` on a one-parameter state. -/
theorem C1_napoleon_shadow_preserved_witness :
    ∃ dKey dSec pidD,
      dsGet c1WOut.ds dKey = some (some dSec) ∧
      (dKey = "Deleted ".data ++ "Parameters".data ∨
        dKey = resolveAlias napoleonAliases ("Deleted ".data ++ "Parameters".data)) ∧
      (DKey.str "old".data, pidD) ∈ dSec.args ∧
      "old".data ∈ (heapGet c1WOut.heap pidD).names ∧
      (heapGet c1WOut.heap pidD).description = (heapGet c1WSt.heap 0).description :=
  C1_napoleon_shadow_preserved c1WSt [] "Parameters".data none "Deleted ".data false
    [] c1WOut c1WSec "old".data 0 (by decide) (by decide) (by decide) (by decide)
    (by decide) (by decide) (by decide) (by decide) (by decide) (by decide)
    (by decide) (by decide)

/-- Alphanumeric characters are not whitespace, not indentation and not
a newline. -/
theorem alnum_facts (c : Char) (h : isAlnumA c = true) :
    pyWsChars.contains c = false ∧ isIndentChar c = false ∧ c ≠ '\n' := by
  have hne : ∀ x : Char, isAlnumA x = false → c ≠ x := by
    intro x hx he
    rw [he, hx] at h
    exact Bool.noConfusion h
  have h1 := hne ' ' (by decide)
  have h2 := hne '\t' (by decide)
  have h3 := hne '\n' (by decide)
  have h4 := hne '\r' (by decide)
  have h5 := hne '\x0b' (by decide)
  have h6 := hne '\x0c' (by decide)
  refine ⟨?_, ?_, h3⟩
  · rw [pyWsChars]
    simp only [List.contains_cons, List.contains_nil, Bool.or_false,
      beq_eq_false_iff_ne.mpr h1, beq_eq_false_iff_ne.mpr h2,
      beq_eq_false_iff_ne.mpr h3, beq_eq_false_iff_ne.mpr h4,
      beq_eq_false_iff_ne.mpr h5, beq_eq_false_iff_ne.mpr h6, Bool.false_or]
  · rw [isIndentChar]
    rw [beq_eq_false_iff_ne.mpr h1, beq_eq_false_iff_ne.mpr h2]
    rfl

/-- `dropWhile` is the identity when the predicate fails on every
element. -/
theorem dropWhile_all_false {α : Type} (p : α → Bool) (l : List α)
    (h : ∀ x ∈ l, p x = false) : l.dropWhile p = l := by
  cases l with
  | nil => rfl
  | cons x xs =>
    rw [List.dropWhile_cons, h x (List.mem_cons_self _ _)]
    simp

/-- `takeWhile` is the identity when the predicate holds everywhere. -/
theorem takeWhile_all_true {α : Type} (p : α → Bool) (l : List α)
    (h : ∀ x ∈ l, p x = true) : l.takeWhile p = l := by
  induction l with
  | nil => rfl
  | cons x xs ih =>
    rw [List.takeWhile_cons, h x (List.mem_cons_self _ _)]
    simp only [if_true]
    rw [ih (fun x hm => h x (List.mem_cons_of_mem _ hm))]

/-- Left-stripping with a character set is the identity on strings with
no stripped characters. -/
theorem pyLstripSet_id (chs : List Char) (t : Str)
    (h : ∀ c ∈ t, chs.contains c = false) : pyLstripSet chs t = t :=
  dropWhile_all_false _ _ h

/-- Right-stripping with a character set is the identity on strings with
no stripped characters. -/
theorem pyRstripSet_id (chs : List Char) (t : Str)
    (h : ∀ c ∈ t, chs.contains c = false) : pyRstripSet chs t = t := by
  rw [pyRstripSet, dropWhile_all_false _ _
    (fun c hm => h c (List.mem_reverse.mp hm)), List.reverse_reverse]

/-- Right-stripping whitespace removes exactly a final newline appended
to a whitespace-free string. -/
theorem pyRstrip_append_nl (t : Str) (h : ∀ c ∈ t, pyWsChars.contains c = false) :
    pyRstrip (t ++ ['\n']) = t := by
  rw [pyRstrip, pyRstripSet, List.reverse_append,
    show (['\n'] : Str).reverse ++ t.reverse = '\n' :: t.reverse from rfl,
    List.dropWhile_cons]
  rw [show pyWsChars.contains '\n' = true from rfl]
  simp only [if_true]
  rw [dropWhile_all_false _ _ (fun c hm => h c (List.mem_reverse.mp hm)),
    List.reverse_reverse]

/-- A whitespace-free string followed by one newline has exactly one
trailing newline. -/
theorem countTrailingNewlines_append (t : Str)
    (h : ∀ c ∈ t, pyWsChars.contains c = false) :
    countTrailingNewlines (t ++ ['\n']) = 1 := by
  rw [countTrailingNewlines, pyRstrip_append_nl t h, List.drop_left]
  rfl

/-- Splitting (keeping newlines) a newline-free nonempty string yields a
single line. -/
theorem splitKeepNl_single (t : Str) (hne : t ≠ []) (h : ∀ c ∈ t, c ≠ '\n') :
    splitKeepNl t = [t] := by
  induction t with
  | nil => exact absurd rfl hne
  | cons c cs ih =>
    rw [splitKeepNl]
    rw [if_neg (h c (List.mem_cons_self _ _))]
    cases hcs : cs with
    | nil => rfl
    | cons d ds =>
      rw [← hcs, ih (by rw [hcs]; exact List.cons_ne_nil _ _)
        (fun x hm => h x (List.mem_cons_of_mem _ hm))]

/-- Splitting (keeping newlines) a newline-free nonempty string with one
appended newline yields the whole string as a single line. -/
theorem splitKeepNl_append_nl (t : Str) (hne : t ≠ []) (h : ∀ c ∈ t, c ≠ '\n') :
    splitKeepNl (t ++ ['\n']) = [t ++ ['\n']] := by
  induction t with
  | nil => exact absurd rfl hne
  | cons c cs ih =>
    rw [List.cons_append, splitKeepNl]
    rw [if_neg (h c (List.mem_cons_self _ _))]
    cases hcs : cs with
    | nil => rfl
    | cons d ds =>
      rw [← hcs, ih (by rw [hcs]; exact List.cons_ne_nil _ _)
        (fun x hm => h x (List.mem_cons_of_mem _ hm))]

/-- Splitting a newline-free string on newlines yields a single line. -/
theorem splitOnNl_single (t : Str) (h : ∀ c ∈ t, c ≠ '\n') :
    splitOnNl t = [t] := by
  induction t with
  | nil => rfl
  | cons c cs ih =>
    rw [splitOnNl]
    rw [if_neg (h c (List.mem_cons_self _ _)),
      ih (fun x hm => h x (List.mem_cons_of_mem _ hm))]

/-- Splitting a newline-free string with one appended newline yields the
line and one empty final part. -/
theorem splitOnNl_append_nl (t : Str) (h : ∀ c ∈ t, c ≠ '\n') :
    splitOnNl (t ++ ['\n']) = [t, []] := by
  induction t with
  | nil => rfl
  | cons c cs ih =>
    rw [List.cons_append, splitOnNl]
    rw [if_neg (h c (List.mem_cons_self _ _)),
      ih (fun x hm => h x (List.mem_cons_of_mem _ hm))]

/-- A nonempty all-alphanumeric line is not a Google heading: it has no
colon. -/
theorem googleHeadingLine_alnum (t : Str) (hall : ∀ c ∈ t, isAlnumA c = true) :
    googleHeadingLine t = false := by
  cases t with
  | nil => rfl
  | cons c rest =>
    rw [googleHeadingLine]
    rw [if_pos (hall c (List.mem_cons_self _ _))]
    rw [takeWhile_all_true _ rest (fun x hm => by
      rw [hall x (List.mem_cons_of_mem _ hm)]
      rfl)]
    simp only [List.drop_length]

/-- Stripping whitespace is the identity on whitespace-free strings. -/
theorem pyStrip_id (t : Str) (h : ∀ c ∈ t, pyWsChars.contains c = false) :
    pyStrip t = t := by
  rw [pyStrip, pyLstrip, pyLstripSet_id _ _ h, pyRstrip, pyRstripSet_id _ _ h]

/-- Dedenting is the identity on a nonempty line of alphanumerics. -/
theorem pyDedent_id (t : Str) (hne : t ≠ []) (hall : ∀ c ∈ t, isAlnumA c = true) :
    pyDedent t = t := by
  have hnl : ∀ c ∈ t, c ≠ '\n' := fun c hm => (alnum_facts c (hall c hm)).2.2
  have hind : ∀ c ∈ t, isIndentChar c = false :=
    fun c hm => (alnum_facts c (hall c hm)).2.1
  obtain ⟨c, cs, hct⟩ := List.exists_cons_of_ne_nil hne
  have hallI : t.all isIndentChar = false := by
    rw [hct, List.all_cons, hind c (hct ▸ List.mem_cons_self _ _)]
    rfl
  have hanyI : (List.any t fun x => decide ¬isIndentChar x = true) = true := by
    rw [hct, List.any_cons, hind c (hct ▸ List.mem_cons_self _ _)]
    rfl
  have hlead : leadingIndent t = [] := by
    rw [leadingIndent, hct, List.takeWhile_cons,
      hind c (hct ▸ List.mem_cons_self _ _)]
    simp
  rw [pyDedent, splitOnNl_single t hnl]
  simp only [List.map_cons, List.map_nil, hallI, Bool.false_eq_true, and_false,
    if_false, List.filter_cons, hanyI, if_true, List.filter_nil, hlead,
    List.foldl_nil]
  rw [show ([] : Str).isPrefixOf t = true from by
    rw [List.isPrefixOf_iff_prefix]
    exact List.nil_prefix]
  simp only [if_true, List.drop_zero]
  rfl

/-- Dedenting with no skipped first lines is the identity on a nonempty
alphanumeric line. -/
theorem dedentDocstr_zero (t : Str) (hne : t ≠ []) (hall : ∀ c ∈ t, isAlnumA c = true) :
    dedentDocstr t 0 = t := by
  have hnl : ∀ c ∈ t, c ≠ '\n' := fun c hm => (alnum_facts c (hall c hm)).2.2
  rw [dedentDocstr, splitKeepNl_single t hne hnl]
  rw [if_neg (by exact List.cons_ne_nil _ _)]
  rw [show ([t] : List Str).take 0 = [] from rfl, List.map_nil,
    show ([t] : List Str).drop 0 = [t] from rfl]
  rw [show ([t] : List Str).flatten = t ++ [] from rfl, List.append_nil,
    pyDedent_id t hne hall]
  rfl

/-- Dedenting with the first line skipped is the identity on a single
alphanumeric line with a trailing newline. -/
theorem dedentDocstr_append (t : Str) (hne : t ≠ []) (hall : ∀ c ∈ t, isAlnumA c = true) :
    dedentDocstr (t ++ ['\n']) 1 = t ++ ['\n'] := by
  have hnl : ∀ c ∈ t, c ≠ '\n' := fun c hm => (alnum_facts c (hall c hm)).2.2
  have hind : ∀ c ∈ t, isIndentChar c = false :=
    fun c hm => (alnum_facts c (hall c hm)).2.1
  rw [dedentDocstr, splitKeepNl_append_nl t hne hnl]
  rw [if_neg (by exact List.cons_ne_nil _ _)]
  rw [show ([t ++ ['\n']] : List Str).take 1 = [t ++ ['\n']] from rfl,
    show ([t ++ ['\n']] : List Str).drop 1 = [] from rfl, List.map_cons, List.map_nil]
  rw [pyLstripSet_id [' ', '\t'] (t ++ ['\n']) ?side]
  case side =>
    intro c hm
    rcases List.mem_append.mp hm with hm' | hm'
    · have hic := hind c hm'
      rw [isIndentChar] at hic
      obtain ⟨hsp, htb⟩ := Bool.or_eq_false_iff.mp hic
      simp only [List.contains_cons, List.contains_nil, hsp, htb, Bool.or_false]
    · rw [show c = '\n' from by simpa using hm']
      rfl
  rw [show ([t ++ ['\n']] : List Str).flatten = (t ++ ['\n']) ++ [] from rfl,
    List.append_nil, show ([] : List Str).flatten = [] from rfl]
  rw [show pyDedent [] = [] from rfl, List.append_nil]

/-- Verbose dedenting of a nonempty alphanumeric line finds no indent. -/
theorem dedentVerbose_id (t : Str) (hne : t ≠ []) (hall : ∀ c ∈ t, isAlnumA c = true) :
    dedentVerbose t 0 = ([], t) := by
  have hnl : ∀ c ∈ t, c ≠ '\n' := fun c hm => (alnum_facts c (hall c hm)).2.2
  have hw : ∀ c ∈ t, pyWsChars.contains c = false :=
    fun c hm => (alnum_facts c (hall c hm)).1
  have hfind1 : List.find?
      (fun i => decide (0 ≤ i ∧ pyStrip (([t] : List Str).getD i []) ≠ [])) [0]
      = some 0 := by
    have hd : decide (0 ≤ 0 ∧ pyStrip (([t] : List Str).getD 0 []) ≠ []) = true := by
      rw [decide_eq_true_eq]
      constructor
      · exact Nat.le_refl 0
      · show pyStrip t ≠ []
        rw [pyStrip_id t hw]
        exact hne
    rw [List.find?_cons, hd]
  have hpf : pyFind t t = some 0 := by
    rw [pyFind]
    cases hr : List.range (t.length + 1) with
    | nil =>
      exfalso
      have hlr := List.length_range (t.length + 1)
      rw [hr] at hlr
      exact Nat.noConfusion hlr.symm
    | cons i is =>
      have hi0 : i = 0 := by
        have hmap := List.range_succ_eq_map t.length
        rw [hr] at hmap
        exact ((List.cons.injEq _ _ _ _ ▸ hmap) : i = 0 ∧ _).1
      have hpre : t.isPrefixOf (t.drop i) = true := by
        rw [hi0, List.drop_zero, List.isPrefixOf_iff_prefix]
      rw [List.find?_cons, hpre, hi0]
  rw [dedentVerbose, dedentDocstr_zero t hne hall, splitKeepNl_single t hne hnl]
  rw [show List.range ([t] : List Str).length = [0] from rfl]
  rw [hfind1]
  show (match pyFind (([t] : List Str).getD 0 []) (([t] : List Str).getD 0 []) with
    | some j => (List.take j (([t] : List Str).getD ((some 0).getD 0) []), t)
    | none => ([], t)) = ([], t)
  rw [show ([t] : List Str).getD 0 [] = t from rfl, hpf]
  rfl

/-- Normalizing to one trailing newline strips the appended newline of a
whitespace-free line. -/
theorem stripNewlines_01 (t : Str) (hne : t ≠ [])
    (hall : ∀ c ∈ t, isAlnumA c = true) :
    stripNewlines (t ++ ['\n']) 0 1 = t := by
  have hind : ∀ c ∈ t, isIndentChar c = false :=
    fun c hm => (alnum_facts c (hall c hm)).2.1
  have hrs : pyRstripSet [' ', '\t'] (t ++ ['\n']) = t ++ ['\n'] := by
    refine pyRstripSet_id _ _ ?_
    intro c hm
    rcases List.mem_append.mp hm with hm' | hm'
    · have hic := hind c hm'
      rw [isIndentChar] at hic
      obtain ⟨hsp, htb⟩ := Bool.or_eq_false_iff.mp hic
      simp only [List.contains_cons, List.contains_nil, hsp, htb, Bool.or_false]
    · rw [show c = '\n' from by simpa using hm']
      rfl
  show stripOneTrailingNl (t ++ ['\n']) = t
  rw [stripOneTrailingNl]
  simp only [hrs]
  rw [List.reverse_append, show (['\n'] : Str).reverse ++ t.reverse
    = '\n' :: t.reverse from rfl]
  obtain ⟨c, cs, hct⟩ := List.exists_cons_of_ne_nil
    (fun he => hne (by simpa using congrArg List.reverse he) : t.reverse ≠ [])
  have hcr : c ≠ '\r' := by
    intro he
    have hcm : c ∈ t := List.mem_reverse.mp (hct ▸ List.mem_cons_self _ _)
    have := hall c hcm
    rw [he] at this
    exact Bool.noConfusion this
  rw [hct]
  rw [show ('\n' :: c :: cs).take 2 = ['\n', c] from rfl]
  rw [if_neg (by
    intro he
    simp only [List.cons.injEq, and_true, true_and] at he
    exact hcr he)]
  rw [show ('\n' :: c :: cs).take 1 = ['\n'] from rfl, if_pos rfl]
  rw [List.length_append, show (['\n'] : Str).length = 1 from rfl,
    Nat.add_sub_cancel, List.take_left]

/-- Section scanning of a single alphanumeric summary line: everything
goes into the Summary pseudo-section. -/
theorem googleParseSections_single (t : Str) (hne : t ≠ [])
    (hall : ∀ c ∈ t, isAlnumA c = true) :
    googleParseSections (t ++ ['\n']) = [("Summary".data, t ++ ['\n'])] := by
  have hnl : ∀ c ∈ t, c ≠ '\n' := fun c hm => (alnum_facts c (hall c hm)).2.2
  rw [googleParseSections, splitOnNl_append_nl t hnl]
  rw [show List.takeWhile (fun l => !googleHeadingLine l) [t, []]
      = [t, []] from by
    refine takeWhile_all_true _ _ ?_
    intro x hm
    rcases List.mem_cons.mp hm with he | hm'
    · rw [he, googleHeadingLine_alnum t hall]
      rfl
    · rw [show x = [] from by simpa using hm']
      rfl]
  rw [show ([t, []] : List Str).drop ([t, []] : List Str).length = [] from
    List.drop_length _]
  rw [if_neg (by exact List.cons_ne_nil _ _)]
  rw [if_neg (by
    intro hx
    exact hx rfl)]
  rw [show joinNl [t, []] = t ++ ['\n'] from rfl]
  rw [List.append_nil]
  rw [show googleSectionsGo (([] : List Str).length + 1) [] = [] from rfl]

/-- Building the Summary section of a single alphanumeric line: a plain
(unstructured) section whose raw text is the line itself. -/
theorem googleMkSec_summary (t : Str) (hne : t ≠ [])
    (hall : ∀ c ∈ t, isAlnumA c = true) :
    googleMkSec [] "Summary".data (t ++ ['\n'])
      = ([], { heading := "Summary".data, aliasName := "Summary".data,
               structured := false, args := [], rawText := t,
               sectionIndent := "    ".data }) := by
  rw [googleMkSec]
  rw [show resolveAlias napoleonAliases "Summary".data = "Summary".data from rfl]
  rw [show napoleonStructuredNames.contains "Summary".data = false from rfl]
  rw [stripNewlines_01 t hne hall]
  simp only [Bool.false_eq_true, if_false]
  rw [dedentVerbose_id t hne hall]
  rfl

/-- Parsing a single alphanumeric summary line with a trailing newline:
an empty heap and exactly one (unstructured) Summary section. -/
theorem googleParse_single (t : Str) (hne : t ≠ [])
    (hall : ∀ c ∈ t, isAlnumA c = true) :
    googleParse (t ++ ['\n'])
      = { heap := [],
          ds := { sections := [("Summary".data, some
                    { heading := "Summary".data, aliasName := "Summary".data,
                      structured := false, args := [], rawText := t,
                      sectionIndent := "    ".data })],
                  trailingNewlines := 1 } } := by
  have hw : ∀ c ∈ t, pyWsChars.contains c = false :=
    fun c hm => (alnum_facts c (hall c hm)).1
  rw [googleParse, countTrailingNewlines_append t hw, dedentDocstr_append t hne hall,
    googleParseSections_single t hne hall]
  simp only [List.foldl_cons, List.foldl_nil]
  rw [show googleExtractName "Summary".data = "Summary".data from rfl]
  rw [googleMkSec_summary t hne hall]
  rfl

/-- C3 (amended): on single-line alphanumeric summaries the round trip
is exact. -/
theorem C3_roundtrip_normal_form (t : Str) (hne : t ≠ [])
    (hall : ∀ c ∈ t, isAlnumA c = true) :
    googleFormat (googleParse (t ++ ['\n'])) [] = t ++ ['\n'] := by
  have hw : ∀ c ∈ t, pyWsChars.contains c = false :=
    fun c hm => (alnum_facts c (hall c hm)).1
  have hnl : ∀ c ∈ t, c ≠ '\n' := fun c hm => (alnum_facts c (hall c hm)).2.2
  have hclead : countLeadingNewlines t = 0 := by
    rw [countLeadingNewlines, pyLstrip, pyLstripSet_id _ _ hw]
    rw [if_neg hne, Nat.sub_self, List.take_zero]
    rfl
  have hctrail : countTrailingNewlines t = 0 := by
    rw [countTrailingNewlines, pyRstrip, pyRstripSet_id _ _ hw, List.drop_length]
    rfl
  have hwb1 : withBoundingNewlines t 0 1 = t ++ ['\n'] := by
    rw [withBoundingNewlines, hclead, hctrail]
    rw [show List.replicate (0 - 0) '\n' = [] from rfl,
      show List.replicate (1 - 0) '\n' = ['\n'] from rfl, List.nil_append]
  have hlsnl : pyLstrip (t ++ ['\n']) = t ++ ['\n'] := by
    obtain ⟨c, cs, hct⟩ := List.exists_cons_of_ne_nil hne
    rw [hct, List.cons_append, pyLstrip, pyLstripSet, List.dropWhile_cons,
      hw c (hct ▸ List.mem_cons_self _ _)]
    simp
  have hcleadnl : countLeadingNewlines (t ++ ['\n']) = 0 := by
    rw [countLeadingNewlines, hlsnl]
    rw [if_neg (by simp)]
    rw [Nat.sub_self, List.take_zero]
    rfl
  have hwb2 : withBoundingNewlines (t ++ ['\n']) 0 1 = t ++ ['\n'] := by
    rw [withBoundingNewlines, hcleadnl, countTrailingNewlines_append t hw]
    simp
  rw [googleParse_single t hne hall]
  rw [googleFormat]
  have hdsg : dsGet ⟨[("Summary".data, some ⟨"Summary".data, "Summary".data, false,
      [], t, "    ".data⟩)], 1⟩ "Summary".data
      = some (some ⟨"Summary".data, "Summary".data, false, [], t, "    ".data⟩) := rfl
  have hexb : sectionExB napoleonAliases ⟨[("Summary".data, some ⟨"Summary".data,
      "Summary".data, false, [], t, "    ".data⟩)], 1⟩ "Summary".data = true := by
    rw [sectionExB_direct _ _ _ _ hdsg]
    rfl
  have hgv : getSectionV napoleonAliases ⟨[("Summary".data, some ⟨"Summary".data,
      "Summary".data, false, [], t, "    ".data⟩)], 1⟩ "Summary".data
      = some (some ⟨"Summary".data, "Summary".data, false, [], t, "    ".data⟩) := by
    rw [getSectionV, sectionFind_direct _ _ _ _ hdsg]
    rfl
  simp only [hexb, hgv, if_true]
  rw [show googleSecText []
      ⟨"Summary".data, "Summary".data, false, [], t, "    ".data⟩ = t from rfl]
  rw [pyStrip_id t hw, if_pos hne, hwb1]
  rw [show List.drop 1 [(("Summary".data : Str), some
      (⟨"Summary".data, "Summary".data, false, [], t, "    ".data⟩ : Sec))]
    = [] from rfl]
  rw [List.foldl_nil]
  rw [if_pos (by decide : (1 : Nat) ≠ 0), hwb2]
  rw [indentDocstr, splitKeepNl_append_nl t hne hnl]
  show (t ++ ['\n']) ++ [] = t ++ ['\n']
  exact List.append_nil _

/-- Witness for `C3_roundtrip_normal_form` on a concrete summary. -/
theorem C3_roundtrip_normal_form_witness :
    googleFormat (googleParse ("Overview3".data ++ ['\n'])) []
      = "Overview3".data ++ ['\n'] :=
  C3_roundtrip_normal_form "Overview3".data (by decide) (by decide)
